import Mathlib

/-!
Verification of the hybrid retrieval and ranking pipeline of the `mcp-ts`
repository (rag-mcp service).  The Python sources are shallowly embedded:
floating point scores are modelled as rationals (exact arithmetic; the
z-score normalizer, which takes a square root, is modelled over the reals),
Python dicts as insertion-ordered association lists, and in-place mutation
of shared result objects as explicit updates on a heap (a list of
`SearchResult` values addressed by natural-number references).  The MD5
digest used for result hashing is modelled as the identity on the hashed
key string: the digest is used only as a dictionary key, so any injective
encoding is behaviourally equivalent.
-/

set_option maxHeartbeats 1000000

/-- Python scalar values that occur in search-result payload fields
(`None`, ints, strings). -/
inductive PyVal where
  | none
  | int (n : ℤ)
  | str (s : String)
deriving DecidableEq

/-- Python `str()` of a payload value, as interpolated into f-strings. -/
def pyStr : PyVal → String
  | .none => "None"
  | .int n => toString n
  | .str s => s

/-- Python truthiness of a payload value (`if chunk_id:`). -/
def pyTruthy : PyVal → Bool
  | .none => false
  | .int n => n != 0
  | .str s => s != ""

/-- The fixed payload field set of a stored chunk
(`text`, `document_id`, `document_name`, `file_type`, `chunk_id`,
`page_number`, `user_id`), each field either absent (`Option.none`,
the key is missing from the dict) or present with a Python value
(which itself may be Python `None`).  `reranker_score` and `final_rank`
are written by the LLM reranker (`result.payload['reranker_score'] = ...`). -/
structure Payload where
  text : Option PyVal := Option.none
  document_id : Option PyVal := Option.none
  document_name : Option PyVal := Option.none
  file_type : Option PyVal := Option.none
  chunk_id : Option PyVal := Option.none
  page_number : Option PyVal := Option.none
  user_id : Option PyVal := Option.none
  reranker_score : Option PyVal := Option.none
  final_rank : Option PyVal := Option.none
deriving DecidableEq

/-- One retrieved passage candidate, as returned by the vector store and
passed through fusion/reranking.  `score` is the mutable relevance score
(`result.score = final_score` in the fusion code), `collection_id` models
the `_collection_id` attribute attached by the orchestrator. -/
structure SearchResult where
  id : String := ""
  score : ℚ := 0
  payload : Payload := {}
  collection_id : Option String := Option.none
deriving DecidableEq

instance : Inhabited SearchResult := ⟨{}⟩

/-! ### Insertion-ordered association lists (Python dict / defaultdict) -/

/-- Dictionary lookup with a default (`dict.get(k, d)` /
`defaultdict` read). -/
def lookupD {κ α : Type} [DecidableEq κ] : List (κ × α) → κ → α → α
  | [], _, d => d
  | (k, v) :: m, key, d => if k = key then v else lookupD m key d

/-- `defaultdict(float)`-style accumulation `m[key] += v`: the key keeps
its first-insertion position, a missing key is appended. -/
def updateAdd {κ α : Type} [DecidableEq κ] [Add α] :
    List (κ × α) → κ → α → List (κ × α)
  | [], key, v => [(key, v)]
  | (k, x) :: m, key, v =>
      if k = key then (k, x + v) :: m else (k, x) :: updateAdd m key v

/-- Plain dict assignment `m[key] = v`: the key keeps its first-insertion
position, a missing key is appended. -/
def updateSet {κ α : Type} [DecidableEq κ] :
    List (κ × α) → κ → α → List (κ × α)
  | [], key, v => [(key, v)]
  | (k, x) :: m, key, v =>
      if k = key then (k, v) :: m else (k, x) :: updateSet m key v

/-- The key list of an association list (Python `dict` keys, in
insertion order). -/
def keysOf {κ α : Type} (m : List (κ × α)) : List κ := m.map Prod.fst

/-! ### Stable descending sort (Python `list.sort(key=..., reverse=True)`)

Python's sort is stable; a stable sort is uniquely determined by its key
function, so this insertion sort is observationally identical to the
`list.sort(..., reverse=True)` / `sorted(..., reverse=True)` calls in the
source. -/

/-- Insert into a descending list, before the first strictly smaller key
(keeps the stable order among equal keys). -/
def insertDescBy {α β : Type} [LinearOrder β] (key : α → β) (x : α) :
    List α → List α
  | [] => [x]
  | y :: ys => if key y ≤ key x then x :: y :: ys else y :: insertDescBy key x ys

/-- Stable descending sort by a key. -/
def sortDescBy {α β : Type} [LinearOrder β] (key : α → β) (l : List α) :
    List α :=
  l.foldr (insertDescBy key) []

/-! ### Python `sep.join`, chunk slicing, heap updates -/

/-- Python `sep.join(parts)`. -/
def joinSep (sep : String) : List String → String
  | [] => ""
  | [x] => x
  | x :: y :: xs => x ++ sep ++ joinSep sep (y :: xs)

/-- Replace the element at index `i` (out-of-range indices are left
untouched; all source call sites are in range). -/
def modifyAt {α : Type} (H : List α) (i : ℕ) (f : α → α) : List α :=
  match H.get? i with
  | Option.none => H
  | some a => H.set i (f a)

/-- Heap references: result objects live in a heap (list) and the fusion
code manipulates lists of references to them; `deref` is attribute access
on the object. -/
def deref (H : List SearchResult) (i : ℕ) : SearchResult :=
  (H.get? i).getD default

/-- Write the fused scores back into the shared result objects
(`result_obj.score = final_score` for each entry of the score dict). -/
def writeScores (H : List SearchResult) (pairs : List (ℕ × ℚ)) :
    List SearchResult :=
  pairs.foldl (fun H p => modifyAt H p.1 (fun r => { r with score := p.2 })) H

/-- Attach the collection id to every result of a collection
(`result._collection_id = collection_id`). -/
def tagResults (H : List SearchResult) (refs : List ℕ) (cid : String) :
    List SearchResult :=
  refs.foldl (fun H i => modifyAt H i (fun r => { r with collection_id := some cid })) H

/-! ## `utils/fusion_score.py` — the FusionService

Heap convention: the fusion methods receive lists of references into a
heap `H : List SearchResult` and return the updated heap together with
the returned (ordered) references, mirroring the in-place
`result_obj.score = final_score` mutation of the Python code. -/

/-- `class NormalizationMethod(Enum)` of `fusion_score.py`: the only
member is `MIN_MAX = "min_max"`. -/
inductive NormalizationMethod where
  | MIN_MAX
deriving DecidableEq

/-- `class FusionMethod(Enum)` of `fusion_score.py`. -/
inductive FusionMethod where
  | WEIGHTED
  | RRF
  | MAX_SCORE
deriving DecidableEq

/-- `NormalizationMethod(value)` — Python by-value enum coercion; an
unknown value raises `ValueError`, modelled as `Option.none`. -/
def NormalizationMethod.ofValue (s : String) : Option NormalizationMethod :=
  if s = "min_max" then some .MIN_MAX else Option.none

/-- `FusionMethod(value)` — Python by-value enum coercion. -/
def FusionMethod.ofValue (s : String) : Option FusionMethod :=
  if s = "weighted" then some .WEIGHTED
  else if s = "reciprocal_rank_fusion" then some .RRF
  else if s = "max_score" then some .MAX_SCORE
  else Option.none

/-- Min-max branch of `FusionService.normalize_scores`: empty list stays
empty, a uniform list maps to all `1.0`, otherwise `(s - min)/(max - min)`. -/
def minMaxNormalize : List ℚ → List ℚ
  | [] => []
  | s :: ss =>
      let mx := (s :: ss).foldl max s
      let mn := (s :: ss).foldl min s
      if mx = mn then (s :: ss).map (fun _ => 1)
      else (s :: ss).map (fun x => (x - mn) / (mx - mn))

/-- `FusionService.normalize_scores(scores, method)`; the enum has only
`MIN_MAX`, so every call takes the min-max branch (the `else` fallback in
the source is unreachable for members of the enum). -/
def FusionService.normalize_scores (scores : List ℚ) :
    NormalizationMethod → List ℚ
  | .MIN_MAX => minMaxNormalize scores

/-- `FusionService.__init__(default_dense_weight=0.6)` as instantiated by
the rag-mcp server (`FusionService(default_dense_weight=0.6)`). -/
def FusionService.default_dense_weight : ℚ := 3 / 5

/-- `FusionService.create_result_hash(result)`.  The MD5 digest of the
`unique_id` string is modelled as the string itself (the digest is only
used as a dict key).  Note the source computes
`chunk_id = result.payload.get('chunk_id', '')`, so a *missing* key
yields the empty string (which `is not None`), and the page-number
fallback fires only when the payload holds an explicit `None`. -/
def FusionService.create_result_hash (r : SearchResult) : String :=
  let doc_id := r.payload.document_id.getD (.str "")
  let chunk_id := r.payload.chunk_id.getD (.str "")
  let page_number := r.payload.page_number.getD (.str "")
  let primary_id := pyStr doc_id ++ "_" ++ pyStr chunk_id
  let fallback_id := pyStr doc_id ++ "_" ++ pyStr page_number
  if chunk_id ≠ PyVal.none then primary_id else fallback_id

/-- Hash of the object a heap reference points to. -/
def refHash (H : List SearchResult) (i : ℕ) : String :=
  FusionService.create_result_hash (deref H i)

/-- One iteration of the paired score/object dict updates that both the
weighted and the RRF loops perform:
`scores[key] += v; objects[key] = obj`. -/
def dictStep {α : Type} (key : String) (v : ℚ) (obj : α)
    (acc : List (String × ℚ) × List (String × α)) :
    List (String × ℚ) × List (String × α) :=
  (updateAdd acc.1 key v, updateSet acc.2 key obj)

/-- One (group, weight) iteration of `FusionService.weighted_fusion`'s
accumulation: skip an empty group, else min-max-normalize the group's raw
scores and run `result_scores[hash] += weight * norm_score`,
`result_objects[hash] = result` over the (result, norm_score) pairs. -/
def weightedStep (H : List SearchResult) (norm : NormalizationMethod)
    (acc : List (String × ℚ) × List (String × ℕ)) (gw : List ℕ × ℚ) :
    List (String × ℚ) × List (String × ℕ) :=
  if gw.1 = [] then acc
  else
    (gw.1.zip (FusionService.normalize_scores
        (gw.1.map (fun i => (deref H i).score)) norm)).foldl
      (fun acc p => dictStep (refHash H p.1) (gw.2 * p.2) p.1 acc)
      acc

/-- The accumulation loop of `FusionService.weighted_fusion`. -/
def weightedAccum (H : List SearchResult) (gws : List (List ℕ × ℚ))
    (norm : NormalizationMethod) :
    List (String × ℚ) × List (String × ℕ) :=
  gws.foldl (weightedStep H norm) ([], [])

/-- `result_objects[result_hash]` read-back for each entry of
`result_scores` (the final loop pairs each hash's score with the last
object stored under that hash). -/
def finalizePairs (sc : List (String × ℚ)) (ob : List (String × ℕ)) :
    List (ℕ × ℚ) :=
  sc.map (fun p => (lookupD ob p.1 0, p.2))

/-- The "create final results" tail shared by `weighted_fusion` and
`reciprocal_rank_fusion`: write each hash's accumulated score into the
last object stored under that hash (`result_obj.score = final_score`) and
return the objects sorted by the written-back score, descending
(stable). -/
def finalizeFusion (H : List SearchResult)
    (acc : List (String × ℚ) × List (String × ℕ)) :
    List SearchResult × List ℕ :=
  let pairs := finalizePairs acc.1 acc.2
  let H' := writeScores H pairs
  (H', sortDescBy (fun i => (deref H' i).score) (pairs.map (·.1)))

/-- `FusionService.weighted_fusion(result_groups, weights, normalization)`.
Returns the mutated heap and the returned (ordered) references. -/
def FusionService.weighted_fusion (H : List SearchResult)
    (groups : List (List ℕ)) (weights : Option (List ℚ))
    (norm : NormalizationMethod) : List SearchResult × List ℕ :=
  if groups = [] ∨ groups.all (· = []) then (H, [])
  else
    let ws :=
      match weights with
      | Option.none => List.replicate groups.length 1
      | some ws =>
          if ws.length ≠ groups.length then List.replicate groups.length 1
          else ws
    let total := ws.sum
    let ws := ws.map (· / total)
    finalizeFusion H (weightedAccum H (groups.zip ws) norm)

/-- The accumulation loop shared by both RRF implementations
(`fusion_score.py` and `query_expansion.py`):
`scores[hash(x)] += 1/(rank + 1 + k)` and `objects[hash(x)] = x`, over
every group and every 0-based `rank` within it. -/
def rrfStep {α : Type} (hash : α → String) (k : ℚ)
    (acc : List (String × ℚ) × List (String × α)) (g : List α) :
    List (String × ℚ) × List (String × α) :=
  g.enum.foldl
    (fun acc p => dictStep (hash p.2) (1 / (p.1 + 1 + k)) p.2 acc)
    acc

/-- The full RRF accumulation over all groups. -/
def rrfFold {α : Type} (hash : α → String) (k : ℚ) (groups : List (List α)) :
    List (String × ℚ) × List (String × α) :=
  groups.foldl (rrfStep hash k) ([], [])

/-- `FusionService.reciprocal_rank_fusion(result_groups, k=60)`. -/
def FusionService.reciprocal_rank_fusion (H : List SearchResult)
    (groups : List (List ℕ)) (k : ℚ := 60) : List SearchResult × List ℕ :=
  if groups = [] ∨ groups.all (· = []) then (H, [])
  else finalizeFusion H (rrfFold (refHash H) k groups)

/-- `FusionService.fuse_results(result_groups, method, weights,
normalization, **kwargs)`.  Note the dispatcher has branches only for
`WEIGHTED` and `RRF`; `MAX_SCORE` hits the `else` branch, which logs
"Unknown fusion method" and falls back to weighted fusion. -/
def FusionService.fuse_results (H : List SearchResult)
    (groups : List (List ℕ)) (method : FusionMethod)
    (weights : Option (List ℚ)) (norm : NormalizationMethod)
    (rrf_k : ℚ := 60) : List SearchResult × List ℕ :=
  match method with
  | .WEIGHTED => FusionService.weighted_fusion H groups weights norm
  | .RRF => FusionService.reciprocal_rank_fusion H groups rrf_k
  | .MAX_SCORE => FusionService.weighted_fusion H groups weights norm

/-- `FusionService.fuse_dense_sparse(dense_results, sparse_results,
dense_weight=None, method=WEIGHTED, normalization=MIN_MAX)`:
weights `[dense_weight, 1 - dense_weight]`, `None` defaulting to the
service's `default_dense_weight`. -/
def FusionService.fuse_dense_sparse (H : List SearchResult)
    (dense sparse : List ℕ) (dense_weight : Option ℚ := Option.none)
    (method : FusionMethod := .WEIGHTED)
    (norm : NormalizationMethod := .MIN_MAX) (rrf_k : ℚ := 60) :
    List SearchResult × List ℕ :=
  let w := dense_weight.getD FusionService.default_dense_weight
  FusionService.fuse_results H [dense, sparse] method (some [w, 1 - w]) norm rrf_k

/-- `FusionService.fuse_query_variants(results_by_variant, method="rrf",
variant_weights=None)`: maps the method string to the enum (unknown
strings fall back to RRF), runs `fuse_results`, and converts the returned
(mutated) objects to `(result, result.score)` pairs. -/
def FusionService.fuse_query_variants (H : List SearchResult)
    (groups : List (List ℕ)) (method : String := "rrf")
    (variant_weights : Option (List ℚ) := Option.none) :
    List SearchResult × List (ℕ × ℚ) :=
  let fm : FusionMethod :=
    if method = "rrf" then .RRF
    else if method = "weighted" then .WEIGHTED
    else if method = "max_score" then .MAX_SCORE
    else .RRF
  let res := FusionService.fuse_results H groups fm variant_weights .MIN_MAX 60
  (res.1, res.2.map (fun i => (i, (deref res.1 i).score)))

/-! ## `utils/query_expansion.py` — deduplication and cross-variant fusion

These functions build `(result, score)` tuples without writing `score`
back into the result objects, so they are modelled directly on
`SearchResult` values (no heap needed). -/

/-- `ResultDeduplicator.create_chunk_hash(result)`: same key derivation as
`FusionService.create_result_hash` except the guard is
`if chunk_id:` (truthiness), so the page-number fallback also fires for a
missing key (`''`), an empty string, and the integer `0`. -/
def ResultDeduplicator.create_chunk_hash (r : SearchResult) : String :=
  let doc_id := r.payload.document_id.getD (.str "")
  let chunk_id := r.payload.chunk_id.getD (.str "")
  let page_number := r.payload.page_number.getD (.str "")
  let primary_id := pyStr doc_id ++ "_" ++ pyStr chunk_id
  let fallback_id := pyStr doc_id ++ "_" ++ pyStr page_number
  if pyTruthy chunk_id then primary_id else fallback_id

/-- `ResultDeduplicator.deduplicate_results(all_results)`: keeps, per
chunk hash, the `(result, variant_query, variant_index)` tuple with the
strictly highest score (first seen wins ties), in first-seen order. -/
def ResultDeduplicator.deduplicate_results
    (all_results : List (SearchResult × String × ℕ)) :
    List (SearchResult × String × ℕ) :=
  let chunk_map :=
    all_results.foldl
      (fun m t =>
        let h := ResultDeduplicator.create_chunk_hash t.1
        if h ∈ keysOf m then
          if (lookupD m h t).1.score < t.1.score then updateSet m h t else m
        else updateSet m h t)
      []
  chunk_map.map Prod.snd

/-- `ScoreFusionService.reciprocal_rank_fusion(results_by_variant, k=60)`:
the same accumulation as the FusionService RRF, but returning
`(result, score)` tuples instead of mutating. -/
def ScoreFusionService.reciprocal_rank_fusion
    (results_by_variant : List (List SearchResult)) (k : ℚ := 60) :
    List (SearchResult × ℚ) :=
  let acc := rrfFold ResultDeduplicator.create_chunk_hash k results_by_variant
  sortDescBy (fun p => p.2)
    (acc.1.map (fun p => (lookupD acc.2 p.1 default, p.2)))

/-- `ScoreFusionService.max_score_fusion(results_by_variant)`: per chunk
hash, keep the highest raw score seen (strict comparison, so the
first-seen object wins ties), then sort descending. -/
def ScoreFusionService.max_score_fusion
    (results_by_variant : List (List SearchResult)) :
    List (SearchResult × ℚ) :=
  let acc :=
    results_by_variant.foldl
      (fun acc g =>
        g.foldl
          (fun acc r =>
            let h := ResultDeduplicator.create_chunk_hash r
            if h ∉ keysOf acc.1 ∨ lookupD acc.1 h 0 < r.score then
              (updateSet acc.1 h r.score, updateSet acc.2 h r)
            else acc)
          acc)
      ([], [])
  sortDescBy (fun p => p.2)
    (acc.1.map (fun p => (lookupD acc.2 p.1 default, p.2)))

/-! ## `utils/dense_search.py` / `utils/hybrid_search.py` — orchestrator

Backends (Qdrant, embeddings) are oracles: a function from the requested
limit to the returned results.  Backend errors are already absorbed into
the oracle (the source catches them and returns `[]`). -/

/-- Qdrant sparse query vector (`SparseVector(indices=…, values=…)`). -/
structure SparseVec where
  indices : List ℕ
  values : List ℚ
deriving DecidableEq

/-- `DenseSearchService.search_collection(..., limit)`: passes `limit`
through to the backend unchanged. -/
def DenseSearchService.search_collection
    (backend : ℤ → List SearchResult) (limit : ℤ) : List SearchResult :=
  backend limit

/-- `HybridSearchService._perform_dense_search`: calls
`search_collection` with `limit * 2` (no cap). -/
def HybridSearchService.perform_dense_search
    (searchCollection : ℤ → List SearchResult) (limit : ℤ) :
    List SearchResult :=
  searchCollection (limit * 2)

/-- `HybridSearchService._perform_sparse_search`: empty when there is no
sparse vector or it has no indices, otherwise a sparse query with
`limit * 2` (no cap). -/
def HybridSearchService.perform_sparse_search
    (sparse_vector : Option SparseVec) (backend : ℤ → List SearchResult)
    (limit : ℤ) : List SearchResult :=
  match sparse_vector with
  | Option.none => []
  | some v => if v.indices ≠ [] then backend (limit * 2) else []

/-- `HybridSearchService._search_collection_parallel` after both
sub-searches returned (`dense`, `sparse` are references into the heap):
when sparse results exist, coerce the normalization / fusion-method
strings to their enums (an unknown value raises `ValueError`, caught by
the surrounding `except`, which returns `[]` for the collection) and run
`fuse_dense_sparse`; otherwise fall back to the dense results unchanged.
Every returned result is tagged with the collection id. -/
def HybridSearchService.search_collection_parallel (H : List SearchResult)
    (dense sparse : List ℕ) (dense_weight : ℚ)
    (normalization fusion_method : String) (cid : String) :
    List SearchResult × List ℕ :=
  if sparse ≠ [] then
    match NormalizationMethod.ofValue normalization,
        FusionMethod.ofValue fusion_method with
    | some nm, some fm =>
        let res :=
          FusionService.fuse_dense_sparse H dense sparse (some dense_weight) fm nm
        (tagResults res.1 res.2 cid, res.2)
    | _, _ => (H, [])
  else (tagResults H dense cid, dense)

/-! ## Legacy `rag-mcp/server.py` -/

/-- `perform_hybrid_search` (legacy server, lines 172–196): the limit
passed to the dense and (when a sparse query vector exists) sparse
Qdrant searches; `search_limit = min(limit * 2, 50)`. -/
def legacyServer.perform_hybrid_search_limits (hasSparse : Bool)
    (limit : ℤ) : ℤ × Option ℤ :=
  let search_limit := min (limit * 2) 50
  (search_limit, if hasSparse then some search_limit else Option.none)

/-- The z-score branch of the legacy server's module-level
`normalize_scores` (also present, identically, in the unused
`SearchFusionService.normalize_scores`): guard for the empty list, all
`1.0` when the (population) standard deviation is zero, else
`(s - mean) / std`.  Floats are modelled as reals. -/
noncomputable def legacyNormalizeZScore (scores : List ℝ) : List ℝ :=
  if scores = [] then []
  else if listStd scores = 0 then scores.map (fun _ => 1)
  else scores.map (fun s => (s - listMean scores) / listStd scores)
where
  listMean (l : List ℝ) : ℝ := l.sum / l.length
  listStd (l : List ℝ) : ℝ :=
    Real.sqrt ((l.map (fun s => (s - listMean l) ^ 2)).sum / l.length)

/-! ## `utils/llm_reranker.py` — the LLM reranker -/

/-- Outcome of one `_score_candidate` LLM call: the raw response text, or
an exception (network error, etc. — both the inner `except` of
`_score_candidate` and the `return_exceptions=True` branch of the batch
gather map it to the neutral score 50). -/
inductive CallOutcome where
  | resp (content : String)
  | exc
deriving DecidableEq

/-- `re.findall(r'\d+', response)` as natural numbers: the maximal digit
runs of the string, in order. -/
def findNatsAux : List Char → Option ℕ → List ℕ
  | [], Option.none => []
  | [], some n => [n]
  | c :: cs, acc =>
      if c.isDigit then
        findNatsAux cs (some ((acc.getD 0) * 10 + (c.toNat - '0'.toNat)))
      else
        match acc with
        | some n => n :: findNatsAux cs Option.none
        | Option.none => findNatsAux cs Option.none

/-- `re.findall(r'\d+', s)`, parsed. -/
def findNats (s : String) : List ℕ :=
  findNatsAux s.data Option.none

/-- `LLMRerankerService._parse_llm_response`: first integer found in the
response, clamped to `[0, 100]`; `50` when no number is present.
(`.strip()` does not change the digit runs.) -/
def LLMRerankerService.parse_llm_response (response : String) : ℕ :=
  match findNats response with
  | [] => 50
  | n :: _ => min 100 n

/-- Score yielded for one candidate by the batch loop. -/
def scoreOfOutcome : CallOutcome → ℕ
  | .exc => 50
  | .resp s => LLMRerankerService.parse_llm_response s

/-- `config.RERANKER_BATCH_SIZE`. -/
def LLMRerankerService.batch_size : ℕ := 5

/-- The batch loop of `_batch_process_candidates`
(`for i in range(0, len(candidates), batch_size)`): `bi` is the batch
ordinal, `j` the global index of the batch's first candidate, `fuel` the
number of remaining candidates (each iteration consumes at least one).
A timed-out batch (`timeouts` oracle, by batch ordinal) scores every
candidate 50; otherwise each candidate is scored from its call outcome
(`outcomes` oracle, by global candidate index). -/
def batchProcessAux (bs : ℕ) (timeouts : List Bool)
    (outcomes : List CallOutcome) :
    ℕ → ℕ → ℕ → List SearchResult → List (SearchResult × ℕ)
  | _, _, _, [] => []
  | 0, _, _, _ :: _ => []
  | fuel + 1, bi, j, c :: cs' =>
      let cs := c :: cs'
      let batch := cs.take bs
      let scoredBatch :=
        if timeouts.getD bi false then batch.map (fun cand => (cand, 50))
        else batch.enum.map
          (fun p => (p.2, scoreOfOutcome (outcomes.getD (j + p.1) .exc)))
      scoredBatch ++ batchProcessAux bs timeouts outcomes fuel (bi + 1) (j + bs) (cs.drop bs)

/-- `LLMRerankerService._batch_process_candidates(query, candidates)`. -/
def LLMRerankerService.batch_process_candidates (timeouts : List Bool)
    (outcomes : List CallOutcome) (candidates : List SearchResult) :
    List (SearchResult × ℕ) :=
  batchProcessAux LLMRerankerService.batch_size timeouts outcomes
    candidates.length 0 0 candidates

/-- `result.payload['reranker_score'] = reranker_score;
result.payload['final_rank'] = rank`. -/
def stampRerank (r : SearchResult) (s rank : ℕ) : SearchResult :=
  { r with payload :=
      { r.payload with reranker_score := some (.int s), final_rank := some (.int rank) } }

/-- `LLMRerankerService.rerank_results(query, candidates, limit)`: score
all batches, sort descending by score (stable), truncate to `limit`, and
stamp each surviving result with its score and 1-based rank.  The model
is total, so the outer `except` fallback path is unreachable. -/
def LLMRerankerService.rerank_results (timeouts : List Bool)
    (outcomes : List CallOutcome) (candidates : List SearchResult)
    (limit : ℕ) : List SearchResult :=
  if candidates = [] then []
  else
    let scored := LLMRerankerService.batch_process_candidates timeouts outcomes candidates
    let reranked := (sortDescBy (fun p => p.2) scored).take limit
    reranked.enum.map (fun p => stampRerank p.2.1 p.2.2 (p.1 + 1))

/-! ## Services-based `mcps/rag-mcp/rag-mcp/server.py` — `retrieve` -/

/-- The `collection_id` argument: either an actual list of strings or an
invalid value, carried as its Python `type(...)` and `repr(...)`
renderings (used in the validation message). -/
inductive CollectionIdArg where
  | strList (ids : List String)
  | invalid (typeStr reprStr : String)

/-- `create_reranking_metadata(...)` (processing time in whole
milliseconds; the `:.0f` float rendering is modelled on naturals). -/
structure RerankMeta where
  enabled : Bool
  candidates_processed : ℕ
  final_results : ℕ
  processing_time_ms : ℕ

/-- The `[Reranking: …]` note appended by `format_results_response` when
reranking ran. -/
def rerankingNote (m : RerankMeta) : String :=
  "\n\n[Reranking: " ++ toString m.candidates_processed ++ " → "
    ++ toString m.final_results ++ " results, "
    ++ toString m.processing_time_ms ++ "ms]"

/-- Python `repr()` of a payload value. -/
def pyValRepr : PyVal → String
  | .none => "None"
  | .int n => toString n
  | .str s => "'" ++ s ++ "'"

/-- Python `str(result.payload)` — the dict repr used only as the default
when the `text` field is missing.  The exact key order of the rendering
is irrelevant to every theorem below; declaration order is used. -/
def pyDictRepr (p : Payload) : String :=
  let entry (k : String) (v : Option PyVal) : List String :=
    match v with
    | some v => ["'" ++ k ++ "': " ++ pyValRepr v]
    | Option.none => []
  "\x7b" ++
    joinSep ", "
      (entry "text" p.text ++ entry "document_id" p.document_id ++
       entry "document_name" p.document_name ++ entry "file_type" p.file_type ++
       entry "chunk_id" p.chunk_id ++ entry "page_number" p.page_number ++
       entry "user_id" p.user_id) ++ "\x7d"

/-- The literal head of every citation rendered by the formatter. -/
def citationMarker : String := "SOURCE_CITATION: \\cite\x7b"

/-- One formatted passage of `format_results_response`: the chunk text
followed by a page citation for paginated file types and a chunk citation
otherwise, with the source's defaults for missing fields (`page_number`
1, `chunk_id` the enumeration index, `file_type` `''`). -/
def formatChunk (i : ℕ) (r : SearchResult) : String :=
  let text := pyStr (r.payload.text.getD (.str (pyDictRepr r.payload)))
  let document_name := pyStr (r.payload.document_name.getD (.str "Unknown Document"))
  let page_number := r.payload.page_number.getD (.int 1)
  let chunk_id := r.payload.chunk_id.getD (.int i)
  let file_type := (pyStr (r.payload.file_type.getD (.str ""))).toLower
  let citation :=
    if file_type ∈ ["pdf", "doc", "docx", "pptx", "ppt"] then
      citationMarker ++ document_name ++ ", page " ++ pyStr page_number ++ "\x7d"
    else
      citationMarker ++ document_name ++ ", chunk " ++ pyStr chunk_id ++ "\x7d"
  text ++ " " ++ citation

/-- `format_results_response(results, reranking_metadata)` of the
services-based server: the fixed no-results string for an empty list,
else the chunks joined by blank lines, with the reranking note appended
when reranking was enabled. -/
def mcpServer.format_results_response (results : List SearchResult)
    (meta : Option RerankMeta) : String :=
  if results.isEmpty then "No relevant documents found."
  else
    joinSep "\n\n" (results.enum.map (fun p => formatChunk p.1 p.2)) ++
      (match meta with
       | some m => if m.enabled then rerankingNote m else ""
       | Option.none => "")

/-- The initial-candidate dispatch of `retrieve`: query-expansion path
when enabled, else the hybrid orchestrator for `search_type == "hybrid"`
and the dense-only search for every other value.  The three collaborator
outcomes are oracles; `Except.error` models an exception escaping the
collaborator (caught by `retrieve`'s outer `try`). -/
def retrieve_initial (expansionEnabled : Bool) (search_type : String)
    (expansionOutcome hybridOutcome denseOutcome :
      Except String (List SearchResult)) :
    Except String (List SearchResult) :=
  if expansionEnabled then expansionOutcome
  else if search_type = "hybrid" then hybridOutcome
  else denseOutcome

/-- `retrieve(...)` of the services-based server: validate
`collection_id`, produce initial candidates (any exception is caught and
rendered as `"Error during retrieval: …"`), apply the similarity
threshold, optionally rerank (`final_limit = min(RERANKER_TOP_N=10,
limit)`), and format.  The function is total: it always returns a
string. -/
def mcpServer.retrieve (arg : CollectionIdArg)
    (expansionEnabled rerankEnabled : Bool) (search_type : String)
    (expansionOutcome hybridOutcome denseOutcome :
      Except String (List SearchResult))
    (limit : ℕ) (similarity_threshold : ℚ) (rerankTimeouts : List Bool)
    (rerankOutcomes : List CallOutcome) (rerankTimeMs : ℕ) : String :=
  match arg with
  | .invalid t v =>
      "Invalid collection_id type: expected list of strings, got " ++ t ++ ": " ++ v
  | .strList _ =>
    match retrieve_initial expansionEnabled search_type
        expansionOutcome hybridOutcome denseOutcome with
    | .error e => "Error during retrieval: " ++ e
    | .ok initial0 =>
      let initial :=
        if 0 < similarity_threshold then
          initial0.filter (fun r => decide (similarity_threshold ≤ r.score))
        else initial0
      let final_limit := if rerankEnabled then min 10 limit else limit
      if rerankEnabled ∧ initial ≠ [] then
        mcpServer.format_results_response
          (LLMRerankerService.rerank_results rerankTimeouts rerankOutcomes
            initial final_limit)
          (some { enabled := true, candidates_processed := initial.length,
                  final_results :=
                    (LLMRerankerService.rerank_results rerankTimeouts
                      rerankOutcomes initial final_limit).length,
                  processing_time_ms := rerankTimeMs })
      else
        mcpServer.format_results_response (initial.take limit)
          (some { enabled := false, candidates_processed := initial.length,
                  final_results := initial.length, processing_time_ms := 0 })

/-! ## Statements taken verbatim from the spec (for refinement claims) -/

/-- Modelled from the spec's words (claim C4): the merge key the spec
prescribes — `document_id + chunk_id`, falling back to
`document_id + page_number` when `chunk_id` is absent. -/
def specMergeKey (r : SearchResult) : String :=
  let doc := pyStr (r.payload.document_id.getD (.str ""))
  match r.payload.chunk_id with
  | some v => doc ++ "_" ++ pyStr v
  | Option.none => doc ++ "_" ++ pyStr (r.payload.page_number.getD (.str ""))

/-- `"Error during retrieval: "`. -/
def errorFormHead : String := "Error during retrieval: "

/-- `"Invalid collection_id type: "`. -/
def invalidFormHead : String := "Invalid collection_id type: "

/-- The three return-value forms claim C1 allows for `retrieve`:
formatted passages of a non-empty result list, the fixed no-results
string, or an error string. -/
def C1statedForms (out : String) : Prop :=
  (∃ rs meta, rs ≠ [] ∧ out = mcpServer.format_results_response rs meta) ∨
  out = "No relevant documents found." ∨
  errorFormHead.data <+: out.data

/-- The amended form set: the source additionally returns the
input-validation message for a malformed `collection_id`. -/
def C1amendedForms (out : String) : Prop :=
  C1statedForms out ∨ invalidFormHead.data <+: out.data

/-- The RRF score for one hash list that claim C6 prescribes:
`1/(rank + k)` at the 1-based rank when present, else no contribution. -/
def rrfRankScore (k : ℚ) (hashes : List String) (h : String) : ℚ :=
  if h ∈ hashes then 1 / ((hashes.indexOf h : ℚ) + 1 + k) else 0

/-- The claim-C6 RRF score across groups: the sum over exactly the lists
in which the hash appears. -/
def rrfClaimScore (k : ℚ) (groupHashes : List (List String)) (h : String) : ℚ :=
  (groupHashes.map (fun g => rrfRankScore k g h)).sum

/-- Occurrence-level RRF contribution of one list: the sum of
`1/(rank + 1 + k)` over every 0-based position holding the hash (used to
relate the dict fold to the per-list formula). -/
def rrfOccSum (k : ℚ) (g : List String) (h : String) : ℚ :=
  ((g.enum.filter (fun p => decide (p.2 = h))).map
    (fun p => 1 / ((p.1 : ℚ) + 1 + k))).sum

/-! ### Concrete fixtures used in witnesses and counterexamples -/

/-- A chunk result with a document id and a chunk id. -/
def fxRes (i : String) (sc : ℚ) (doc : String) (chunk : ℤ) : SearchResult :=
  { id := i, score := sc,
    payload := { document_id := some (.str doc), chunk_id := some (.int chunk) } }

/-- A chunk result whose payload has a page number but no `chunk_id`
key. -/
def fxPageRes (i : String) (sc : ℚ) (doc : String) (page : ℤ) : SearchResult :=
  { id := i, score := sc,
    payload := { document_id := some (.str doc), page_number := some (.int page) } }

/-! ## Helper lemmas: association lists -/

theorem lookupD_updateAdd {κ : Type} [DecidableEq κ] (m : List (κ × ℚ))
    (k : κ) (v : ℚ) (k' : κ) :
    lookupD (updateAdd m k v) k' 0 = lookupD m k' 0 + if k' = k then v else 0 := by
  induction m with
  | nil =>
      by_cases h : k = k'
      · subst h; simp [updateAdd, lookupD]
      · have h' : ¬ k' = k := fun hh => h hh.symm
        simp [updateAdd, lookupD, h, h']
  | cons a m ih =>
      obtain ⟨ka, va⟩ := a
      by_cases hak : ka = k
      · subst hak
        by_cases h2 : ka = k'
        · subst h2; simp [updateAdd, lookupD]
        · have h2' : ¬ k' = ka := fun hh => h2 hh.symm
          simp [updateAdd, lookupD, h2, h2']
      · by_cases h2 : ka = k'
        · subst h2
          have h3 : ¬ ka = k := hak
          have h4 : ¬ k = ka := fun hh => hak hh.symm
          simp [updateAdd, lookupD, h3]
        · simp [updateAdd, lookupD, hak, h2, ih]

theorem updateAdd_notMem {κ : Type} [DecidableEq κ] (m : List (κ × ℚ))
    (k : κ) (v : ℚ) : k ∉ keysOf m → updateAdd m k v = m ++ [(k, v)] := by
  induction m with
  | nil => intro _; simp [updateAdd]
  | cons a m ih =>
      obtain ⟨ka, va⟩ := a
      intro h
      simp only [keysOf, List.map_cons, List.mem_cons] at h
      push_neg at h
      have h1 : ¬ ka = k := fun hh => h.1 hh.symm
      have h2 : updateAdd m k v = m ++ [(k, v)] := ih (by simpa [keysOf] using h.2)
      simp [updateAdd, h1, h2]

theorem updateSet_notMem {κ α : Type} [DecidableEq κ] (m : List (κ × α))
    (k : κ) (v : α) : k ∉ keysOf m → updateSet m k v = m ++ [(k, v)] := by
  induction m with
  | nil => intro _; simp [updateSet]
  | cons a m ih =>
      obtain ⟨ka, va⟩ := a
      intro h
      simp only [keysOf, List.map_cons, List.mem_cons] at h
      push_neg at h
      have h1 : ¬ ka = k := fun hh => h.1 hh.symm
      have h2 : updateSet m k v = m ++ [(k, v)] := ih (by simpa [keysOf] using h.2)
      simp [updateSet, h1, h2]

theorem keysOf_updateAdd {κ : Type} [DecidableEq κ] (m : List (κ × ℚ))
    (k : κ) (v : ℚ) :
    keysOf (updateAdd m k v) = if k ∈ keysOf m then keysOf m else keysOf m ++ [k] := by
  induction m with
  | nil => simp [updateAdd, keysOf]
  | cons a m ih =>
      obtain ⟨ka, va⟩ := a
      by_cases hak : ka = k
      · subst hak; simp [updateAdd, keysOf]
      · have hka : ¬ k = ka := fun hh => hak hh.symm
        have ih' : List.map Prod.fst (updateAdd m k v) =
            if k ∈ List.map Prod.fst m then List.map Prod.fst m
            else List.map Prod.fst m ++ [k] := by simpa [keysOf] using ih
        by_cases hk : k ∈ List.map Prod.fst m
        · simp [updateAdd, keysOf, hak, hka, hk, ih']
        · simp [updateAdd, keysOf, hak, hka, hk, ih']

theorem keysOf_updateSet {κ α : Type} [DecidableEq κ] (m : List (κ × α))
    (k : κ) (v : α) :
    keysOf (updateSet m k v) = if k ∈ keysOf m then keysOf m else keysOf m ++ [k] := by
  induction m with
  | nil => simp [updateSet, keysOf]
  | cons a m ih =>
      obtain ⟨ka, va⟩ := a
      by_cases hak : ka = k
      · subst hak; simp [updateSet, keysOf]
      · have hka : ¬ k = ka := fun hh => hak hh.symm
        have ih' : List.map Prod.fst (updateSet m k v) =
            if k ∈ List.map Prod.fst m then List.map Prod.fst m
            else List.map Prod.fst m ++ [k] := by simpa [keysOf] using ih
        by_cases hk : k ∈ List.map Prod.fst m
        · simp [updateSet, keysOf, hak, hka, hk, ih']
        · simp [updateSet, keysOf, hak, hka, hk, ih']

theorem keysOf_updateAdd_nodup {κ : Type} [DecidableEq κ] (m : List (κ × ℚ))
    (k : κ) (v : ℚ) (h : (keysOf m).Nodup) : (keysOf (updateAdd m k v)).Nodup := by
  rw [keysOf_updateAdd]
  by_cases hk : k ∈ keysOf m
  · simpa [hk]
  · rw [if_neg hk]
    refine List.Nodup.append h (List.nodup_singleton k) ?_
    intro a ha hb
    simp only [List.mem_singleton] at hb
    exact hk (hb ▸ ha)

theorem lookupD_mem_of_nodup {κ α : Type} [DecidableEq κ] (m : List (κ × α))
    (k : κ) (v : α) (d : α) :
    (keysOf m).Nodup → (k, v) ∈ m → lookupD m k d = v := by
  induction m with
  | nil => intro _ hmem; simp at hmem
  | cons a m ih =>
      obtain ⟨ka, va⟩ := a
      intro hnd hmem
      simp only [List.mem_cons, Prod.mk.injEq] at hmem
      simp only [keysOf, List.map_cons, List.nodup_cons] at hnd
      rcases hmem with ⟨h1, h2⟩ | h
      · subst h1; subst h2; simp [lookupD]
      · have hne : ¬ ka = k := by
          intro hh
          subst hh
          exact hnd.1 (by simpa using List.mem_map_of_mem Prod.fst h)
        simpa [lookupD, hne] using ih (by simpa [keysOf] using hnd.2) h

theorem mem_of_lookupD {κ α : Type} [DecidableEq κ] (m : List (κ × α))
    (k : κ) (d : α) : k ∈ keysOf m → (k, lookupD m k d) ∈ m := by
  induction m with
  | nil => intro h; simp [keysOf] at h
  | cons a m ih =>
      obtain ⟨ka, va⟩ := a
      intro h
      by_cases hak : ka = k
      · subst hak; simp [lookupD]
      · have hk : k ∈ keysOf m := by
          rcases (by simpa [keysOf] using h : k = ka ∨ k ∈ List.map Prod.fst m) with h1 | h1
          · exact absurd h1.symm hak
          · simpa [keysOf] using h1
        simpa [lookupD, hak] using Or.inr (ih hk)

theorem updateSet_forall {κ α : Type} [DecidableEq κ] (m : List (κ × α))
    (k : κ) (v : α) (P : κ × α → Prop) (hv : P (k, v)) :
    (∀ p ∈ m, P p) → ∀ p ∈ updateSet m k v, P p := by
  induction m with
  | nil => intro _; simpa [updateSet]
  | cons a m ih =>
      obtain ⟨ka, va⟩ := a
      intro hm p hp
      by_cases hak : ka = k
      · rw [show updateSet ((ka, va) :: m) k v = (ka, v) :: m from by
          simp [updateSet, hak]] at hp
        rcases List.mem_cons.mp hp with h | h
        · have hkv : P (ka, v) := by rw [hak]; exact hv
          exact h ▸ hkv
        · exact hm p (List.mem_cons_of_mem _ h)
      · rw [show updateSet ((ka, va) :: m) k v = (ka, va) :: updateSet m k v from by
          simp [updateSet, hak]] at hp
        rcases List.mem_cons.mp hp with h | h
        · exact h ▸ hm (ka, va) (List.mem_cons_self _ _)
        · exact ih (fun q hq => hm q (List.mem_cons_of_mem _ hq)) p h

/-! ## Helper lemmas: the paired score/object dict folds -/

theorem mem_keysOf_updateAdd {κ : Type} [DecidableEq κ] (m : List (κ × ℚ))
    (k : κ) (v : ℚ) (k' : κ) :
    k' ∈ keysOf (updateAdd m k v) ↔ k' ∈ keysOf m ∨ k' = k := by
  rw [keysOf_updateAdd]
  by_cases hk : k ∈ keysOf m
  · simp only [hk, if_true]
    constructor
    · exact Or.inl
    · rintro (h | h)
      · exact h
      · exact h ▸ hk
  · simp [hk]

theorem foldl_dictStep_lookup {γ α : Type} (kf : γ → String) (vf : γ → ℚ)
    (obf : γ → α) (l : List γ) (acc : List (String × ℚ) × List (String × α))
    (h : String) :
    lookupD (l.foldl (fun acc p => dictStep (kf p) (vf p) (obf p) acc) acc).1 h 0
      = lookupD acc.1 h 0
        + ((l.filter (fun p => decide (kf p = h))).map vf).sum := by
  induction l generalizing acc with
  | nil => simp
  | cons a l ih =>
      simp only [List.foldl_cons]
      rw [ih]
      by_cases hk : kf a = h
      · rw [show dictStep (kf a) (vf a) (obf a) acc
            = (updateAdd acc.1 (kf a) (vf a), updateSet acc.2 (kf a) (obf a)) from rfl]
        simp only [lookupD_updateAdd, hk, if_pos rfl, List.filter_cons,
          decide_eq_true_eq, if_true, List.map_cons, List.sum_cons]
        ring
      · rw [show dictStep (kf a) (vf a) (obf a) acc
            = (updateAdd acc.1 (kf a) (vf a), updateSet acc.2 (kf a) (obf a)) from rfl]
        have h2 : ¬ h = kf a := fun hh => hk hh.symm
        simp only [lookupD_updateAdd, h2, if_false, List.filter_cons,
          decide_eq_true_eq, hk, add_zero]

theorem foldl_dictStep_mem_keys {γ α : Type} (kf : γ → String) (vf : γ → ℚ)
    (obf : γ → α) (l : List γ) (acc : List (String × ℚ) × List (String × α))
    (h : String) :
    h ∈ keysOf (l.foldl (fun acc p => dictStep (kf p) (vf p) (obf p) acc) acc).1
      ↔ h ∈ keysOf acc.1 ∨ h ∈ l.map kf := by
  induction l generalizing acc with
  | nil => simp
  | cons a l ih =>
      simp only [List.foldl_cons]
      rw [ih]
      rw [show (dictStep (kf a) (vf a) (obf a) acc).1
          = updateAdd acc.1 (kf a) (vf a) from rfl]
      rw [mem_keysOf_updateAdd]
      simp only [List.map_cons, List.mem_cons]
      tauto

theorem foldl_dictStep_keys_nodup {γ α : Type} (kf : γ → String) (vf : γ → ℚ)
    (obf : γ → α) (l : List γ) :
    ∀ acc : List (String × ℚ) × List (String × α), (keysOf acc.1).Nodup →
    (keysOf (l.foldl (fun acc p => dictStep (kf p) (vf p) (obf p) acc) acc).1).Nodup := by
  induction l with
  | nil => intro acc hnd; simpa
  | cons a l ih =>
      intro acc hnd
      simp only [List.foldl_cons]
      exact ih _ (keysOf_updateAdd_nodup _ _ _ hnd)

theorem foldl_dictStep_ob_forall {γ α : Type} (kf : γ → String) (vf : γ → ℚ)
    (obf : γ → α) (l : List γ) (P : String × α → Prop) :
    ∀ acc : List (String × ℚ) × List (String × α), (∀ q ∈ acc.2, P q) →
    (∀ p ∈ l, P (kf p, obf p)) →
    ∀ q ∈ (l.foldl (fun acc p => dictStep (kf p) (vf p) (obf p) acc) acc).2, P q := by
  induction l with
  | nil => intro acc hacc _; simp only [List.foldl_nil]; exact hacc
  | cons a l ih =>
      intro acc hacc hl
      simp only [List.foldl_cons]
      refine ih _ ?_ (fun p hp => hl p (List.mem_cons_of_mem _ hp))
      exact updateSet_forall _ _ _ _ (hl a (List.mem_cons_self _ _)) hacc

theorem foldl_dictStep_keysEq {γ α : Type} (kf : γ → String) (vf : γ → ℚ)
    (obf : γ → α) (l : List γ) :
    ∀ acc : List (String × ℚ) × List (String × α), keysOf acc.1 = keysOf acc.2 →
    keysOf (l.foldl (fun acc p => dictStep (kf p) (vf p) (obf p) acc) acc).1
      = keysOf (l.foldl (fun acc p => dictStep (kf p) (vf p) (obf p) acc) acc).2 := by
  induction l with
  | nil => intro acc heq; simpa
  | cons a l ih =>
      intro acc heq
      simp only [List.foldl_cons]
      refine ih _ ?_
      rw [show (dictStep (kf a) (vf a) (obf a) acc)
          = (updateAdd acc.1 (kf a) (vf a), updateSet acc.2 (kf a) (obf a)) from rfl]
      rw [keysOf_updateAdd, keysOf_updateSet, heq]

theorem foldl_dictStep_fresh {γ α : Type} (kf : γ → String) (vf : γ → ℚ)
    (obf : γ → α) (l : List γ) :
    ∀ (acc : List (String × ℚ) × List (String × α)),
      (l.map kf).Nodup → (∀ p ∈ l, kf p ∉ keysOf acc.1) →
      (∀ p ∈ l, kf p ∉ keysOf acc.2) →
      l.foldl (fun acc p => dictStep (kf p) (vf p) (obf p) acc) acc
        = (acc.1 ++ l.map (fun p => (kf p, vf p)),
           acc.2 ++ l.map (fun p => (kf p, obf p))) := by
  induction l with
  | nil => intro acc _ _ _; simp
  | cons a l ih =>
      intro acc hnd h1 h2
      simp only [List.map_cons, List.nodup_cons] at hnd
      simp only [List.foldl_cons]
      rw [show dictStep (kf a) (vf a) (obf a) acc
          = (updateAdd acc.1 (kf a) (vf a), updateSet acc.2 (kf a) (obf a)) from rfl]
      rw [updateAdd_notMem _ _ _ (h1 a (List.mem_cons_self _ _)),
        updateSet_notMem _ _ _ (h2 a (List.mem_cons_self _ _))]
      rw [ih _ hnd.2 ?_ ?_]
      · simp [keysOf]
      · intro p hp
        rw [show keysOf (acc.1 ++ [(kf a, vf a)])
            = keysOf acc.1 ++ [kf a] from by simp [keysOf]]
        simp only [List.mem_append, List.mem_singleton]
        push_neg
        exact ⟨h1 p (List.mem_cons_of_mem _ hp),
          fun hh => hnd.1 (hh ▸ List.mem_map_of_mem kf hp)⟩
      · intro p hp
        rw [show keysOf (acc.2 ++ [(kf a, obf a)])
            = keysOf acc.2 ++ [kf a] from by simp [keysOf]]
        simp only [List.mem_append, List.mem_singleton]
        push_neg
        exact ⟨h2 p (List.mem_cons_of_mem _ hp),
          fun hh => hnd.1 (hh ▸ List.mem_map_of_mem kf hp)⟩

/-! ## Helper lemmas: the stable descending sort -/

theorem length_insertDescBy {α β : Type} [LinearOrder β] (key : α → β) (x : α)
    (l : List α) : (insertDescBy key x l).length = l.length + 1 := by
  induction l with
  | nil => rfl
  | cons y ys ih =>
      by_cases h : key y ≤ key x
      · simp [insertDescBy, h]
      · simp [insertDescBy, h, ih]

theorem mem_insertDescBy {α β : Type} [LinearOrder β] (key : α → β) (x a : α)
    (l : List α) : a ∈ insertDescBy key x l ↔ a = x ∨ a ∈ l := by
  induction l with
  | nil => simp [insertDescBy]
  | cons y ys ih =>
      by_cases h : key y ≤ key x
      · simp [insertDescBy, h]
      · simp only [insertDescBy, h, if_false, List.mem_cons, ih]
        tauto

theorem pairwise_insertDescBy {α β : Type} [LinearOrder β] (key : α → β) (x : α)
    (l : List α) (h : List.Pairwise (fun a b => key b ≤ key a) l) :
    List.Pairwise (fun a b => key b ≤ key a) (insertDescBy key x l) := by
  induction l with
  | nil => simp [insertDescBy]
  | cons y ys ih =>
      rcases List.pairwise_cons.mp h with ⟨hy, hys⟩
      by_cases hxy : key y ≤ key x
      · rw [show insertDescBy key x (y :: ys) = x :: y :: ys from by
          simp [insertDescBy, hxy]]
        refine List.pairwise_cons.mpr ⟨?_, h⟩
        intro b hb
        rcases List.mem_cons.mp hb with hb | hb
        · exact hb ▸ hxy
        · exact le_trans (hy b hb) hxy
      · rw [show insertDescBy key x (y :: ys) = y :: insertDescBy key x ys from by
          simp [insertDescBy, hxy]]
        refine List.pairwise_cons.mpr ⟨?_, ih hys⟩
        intro b hb
        rcases (mem_insertDescBy key x b ys).mp hb with hb | hb
        · exact hb ▸ le_of_lt (lt_of_not_le hxy)
        · exact hy b hb

theorem sortDescBy_sorted {α β : Type} [LinearOrder β] (key : α → β)
    (l : List α) :
    List.Pairwise (fun a b => key b ≤ key a) (sortDescBy key l) := by
  induction l with
  | nil => simp [sortDescBy]
  | cons a l ih => exact pairwise_insertDescBy key a _ ih

theorem mem_sortDescBy {α β : Type} [LinearOrder β] (key : α → β) (a : α)
    (l : List α) : a ∈ sortDescBy key l ↔ a ∈ l := by
  induction l with
  | nil => simp [sortDescBy]
  | cons b l ih =>
      show a ∈ insertDescBy key b (sortDescBy key l) ↔ _
      rw [mem_insertDescBy]
      simp [ih]

theorem length_sortDescBy {α β : Type} [LinearOrder β] (key : α → β)
    (l : List α) : (sortDescBy key l).length = l.length := by
  induction l with
  | nil => rfl
  | cons b l ih =>
      show (insertDescBy key b (sortDescBy key l)).length = _
      rw [length_insertDescBy, ih]
      rfl

theorem insertDescBy_front {α β : Type} [LinearOrder β] (key : α → β) (x : α)
    (l : List α) (h : ∀ b ∈ l, key b ≤ key x) : insertDescBy key x l = x :: l := by
  cases l with
  | nil => rfl
  | cons y ys => simp [insertDescBy, h y (List.mem_cons_self _ _)]

theorem sortDescBy_of_sorted {α β : Type} [LinearOrder β] (key : α → β)
    (l : List α) (h : List.Pairwise (fun a b => key b ≤ key a) l) :
    sortDescBy key l = l := by
  induction l with
  | nil => rfl
  | cons a l ih =>
      rcases List.pairwise_cons.mp h with ⟨ha, hl⟩
      show insertDescBy key a (sortDescBy key l) = a :: l
      rw [ih hl]
      exact insertDescBy_front key a l ha

/-! ## Helper lemmas: heap updates -/

theorem modifyAt_get?_ne {α : Type} (H : List α) (i : ℕ) (f : α → α) (j : ℕ)
    (h : j ≠ i) : (modifyAt H i f).get? j = H.get? j := by
  unfold modifyAt
  cases hg : H.get? i with
  | none => rfl
  | some a => exact List.get?_set_ne _ _ (fun hh => h hh.symm)

theorem modifyAt_get?_self {α : Type} (H : List α) (i : ℕ) (f : α → α) :
    (modifyAt H i f).get? i = (H.get? i).map f := by
  unfold modifyAt
  cases hg : H.get? i with
  | none => exact hg
  | some a => rw [List.get?_set_eq, hg]; rfl

theorem length_modifyAt {α : Type} (H : List α) (i : ℕ) (f : α → α) :
    (modifyAt H i f).length = H.length := by
  unfold modifyAt
  cases H.get? i with
  | none => rfl
  | some a => exact List.length_set _ _ _

theorem writeScores_length (H : List SearchResult) (pairs : List (ℕ × ℚ)) :
    (writeScores H pairs).length = H.length := by
  induction pairs generalizing H with
  | nil => rfl
  | cons p ps ih =>
      show (writeScores (modifyAt H p.1 _) ps).length = _
      rw [ih, length_modifyAt]

theorem writeScores_get?_notMem (H : List SearchResult) (pairs : List (ℕ × ℚ))
    (i : ℕ) (h : i ∉ pairs.map Prod.fst) :
    (writeScores H pairs).get? i = H.get? i := by
  induction pairs generalizing H with
  | nil => rfl
  | cons p ps ih =>
      simp only [List.map_cons, List.mem_cons] at h
      push_neg at h
      show (writeScores (modifyAt H p.1 _) ps).get? i = _
      rw [ih _ h.2, modifyAt_get?_ne _ _ _ _ h.1]

theorem writeScores_get?_mem (H : List SearchResult) (pairs : List (ℕ × ℚ))
    (i : ℕ) (s : ℚ) (hnd : (pairs.map Prod.fst).Nodup) (hm : (i, s) ∈ pairs) :
    (writeScores H pairs).get? i
      = (H.get? i).map (fun r => { r with score := s }) := by
  induction pairs generalizing H with
  | nil => simp at hm
  | cons q ps ih =>
      obtain ⟨qi, qs⟩ := q
      simp only [List.map_cons, List.nodup_cons] at hnd
      rcases List.mem_cons.mp hm with h | h
      · obtain ⟨h1, h2⟩ := Prod.mk.injEq .. ▸ h
        subst h1; subst h2
        show (writeScores (modifyAt H i _) ps).get? i = _
        rw [writeScores_get?_notMem _ _ _ hnd.1, modifyAt_get?_self]
      · have hne : i ≠ qi := by
          intro hh
          exact hnd.1 (hh ▸ List.mem_map_of_mem Prod.fst h)
        show (writeScores (modifyAt H qi _) ps).get? i = _
        rw [ih _ hnd.2 h, modifyAt_get?_ne _ _ _ _ hne]

theorem writeScores_deref_mem (H : List SearchResult) (pairs : List (ℕ × ℚ))
    (i : ℕ) (s : ℚ) (hnd : (pairs.map Prod.fst).Nodup) (hm : (i, s) ∈ pairs)
    (hlt : i < H.length) :
    deref (writeScores H pairs) i = { deref H i with score := s } := by
  unfold deref
  rw [writeScores_get?_mem H pairs i s hnd hm]
  rw [List.get?_eq_getElem?, List.getElem?_eq_getElem hlt]
  rfl

theorem writeScores_deref_notMem (H : List SearchResult) (pairs : List (ℕ × ℚ))
    (i : ℕ) (h : i ∉ pairs.map Prod.fst) :
    deref (writeScores H pairs) i = deref H i := by
  unfold deref
  rw [writeScores_get?_notMem H pairs i h]

theorem tagResults_get? (H : List SearchResult) (refs : List ℕ) (c : String)
    (j : ℕ) :
    (tagResults H refs c).get? j
      = (H.get? j).map
          (fun r => if j ∈ refs then { r with collection_id := some c } else r) := by
  induction refs generalizing H with
  | nil =>
      show H.get? j = _
      cases H.get? j <;> simp
  | cons i refs ih =>
      show (tagResults (modifyAt H i _) refs c).get? j = _
      rw [ih]
      by_cases hij : j = i
      · subst hij
        rw [modifyAt_get?_self]
        cases H.get? j with
        | none => rfl
        | some r =>
            simp only [Option.map_some, List.mem_cons, true_or, if_true]
            by_cases hjr : j ∈ refs <;> simp [hjr]
      · rw [modifyAt_get?_ne _ _ _ _ hij]
        cases H.get? j with
        | none => rfl
        | some r =>
            simp only [Option.map_some, List.mem_cons]
            by_cases hjr : j ∈ refs <;> simp [hjr, hij]

theorem tagResults_deref_score (H : List SearchResult) (refs : List ℕ)
    (c : String) (j : ℕ) :
    (deref (tagResults H refs c) j).score = (deref H j).score ∧
    (deref (tagResults H refs c) j).payload = (deref H j).payload ∧
    (deref (tagResults H refs c) j).id = (deref H j).id := by
  unfold deref
  rw [tagResults_get?]
  cases H.get? j with
  | none => simp
  | some r => by_cases hjr : j ∈ refs <;> simp [hjr]

/-! ## Helper lemmas: min-max normalization -/

theorem foldl_max_mono (l : List ℚ) : ∀ {a b : ℚ}, a ≤ b →
    l.foldl max a ≤ l.foldl max b := by
  induction l with
  | nil => intro a b h; exact h
  | cons c l ih => intro a b h; exact ih (max_le_max h (le_refl c))

theorem self_le_foldl_max (l : List ℚ) (a : ℚ) : a ≤ l.foldl max a := by
  induction l generalizing a with
  | nil => exact le_refl a
  | cons c l ih => exact le_trans (le_max_left a c) (ih _)

theorem mem_le_foldl_max (l : List ℚ) (x : ℚ) :
    x ∈ l → ∀ a : ℚ, x ≤ l.foldl max a := by
  induction l with
  | nil => intro h; simp at h
  | cons c l ih =>
      intro h a
      rcases List.mem_cons.mp h with h | h
      · subst h; exact le_trans (le_max_right a x) (self_le_foldl_max l _)
      · exact ih h _

theorem foldl_min_mono (l : List ℚ) : ∀ {a b : ℚ}, a ≤ b →
    l.foldl min a ≤ l.foldl min b := by
  induction l with
  | nil => intro a b h; exact h
  | cons c l ih => intro a b h; exact ih (min_le_min h (le_refl c))

theorem foldl_min_le_self (l : List ℚ) (a : ℚ) : l.foldl min a ≤ a := by
  induction l generalizing a with
  | nil => exact le_refl a
  | cons c l ih => exact le_trans (ih _) (min_le_left a c)

theorem foldl_min_le_mem (l : List ℚ) (x : ℚ) :
    x ∈ l → ∀ a : ℚ, l.foldl min a ≤ x := by
  induction l with
  | nil => intro h; simp at h
  | cons c l ih =>
      intro h a
      rcases List.mem_cons.mp h with h | h
      · subst h; exact le_trans (foldl_min_le_self l _) (min_le_right a x)
      · exact ih h _

theorem minMaxNormalize_cons (s : ℚ) (ss : List ℚ) :
    minMaxNormalize (s :: ss)
      = if (s :: ss).foldl max s = (s :: ss).foldl min s
        then (s :: ss).map (fun _ => (1 : ℚ))
        else (s :: ss).map
          (fun x => (x - (s :: ss).foldl min s)
            / ((s :: ss).foldl max s - (s :: ss).foldl min s)) := rfl

theorem minMaxNormalize_length (l : List ℚ) :
    (minMaxNormalize l).length = l.length := by
  cases l with
  | nil => rfl
  | cons s ss =>
      rw [minMaxNormalize_cons]
      by_cases h : (s :: ss).foldl max s = (s :: ss).foldl min s
      · rw [if_pos h]; simp
      · rw [if_neg h]; simp

theorem minMaxNormalize_pairwise (l : List ℚ)
    (h : List.Pairwise (fun a b => b ≤ a) l) :
    List.Pairwise (fun a b => b ≤ a) (minMaxNormalize l) := by
  cases l with
  | nil => simp [minMaxNormalize]
  | cons s ss =>
      rw [minMaxNormalize_cons]
      by_cases hmm : (s :: ss).foldl max s = (s :: ss).foldl min s
      · rw [if_pos hmm, List.pairwise_map]
        exact h.imp (fun _ => le_refl 1)
      · rw [if_neg hmm, List.pairwise_map]
        have hlt : (s :: ss).foldl min s < (s :: ss).foldl max s := by
          refine lt_of_le_of_ne ?_ (fun hh => hmm hh.symm)
          exact le_trans (foldl_min_le_mem _ s (List.mem_cons_self _ _) s)
            (mem_le_foldl_max _ s (List.mem_cons_self _ _) s)
        refine h.imp (fun hab => ?_)
        exact (div_le_div_right (sub_pos.mpr hlt)).mpr (sub_le_sub_right hab _)

/-! ## Helper lemmas: misc lists -/

theorem pairwise_zip_snd {α β : Type} (R : β → β → Prop) (l : List α) :
    ∀ ns : List β, List.Pairwise R ns →
    List.Pairwise (fun p q => R p.2 q.2) (l.zip ns) := by
  induction l with
  | nil => intro ns _; simp
  | cons a l ih =>
      intro ns hns
      cases ns with
      | nil => simp
      | cons b ns =>
          rcases List.pairwise_cons.mp hns with ⟨hb, hns'⟩
          refine List.pairwise_cons.mpr ⟨?_, ih ns hns'⟩
          intro q hq
          exact hb q.2 (List.of_mem_zip hq).2

theorem lookupD_map_pair {γ α : Type} (kf : γ → String) (obf : γ → α)
    (l : List γ) (d : α) (hnd : (l.map kf).Nodup) (p : γ) (hp : p ∈ l) :
    lookupD (l.map fun q => (kf q, obf q)) (kf p) d = obf p := by
  refine lookupD_mem_of_nodup _ _ _ _ ?_ ?_
  · rw [show keysOf (l.map fun q => (kf q, obf q)) = l.map kf from by
      simp [keysOf, Function.comp]]
    exact hnd
  · exact List.mem_map_of_mem _ hp

/-! ## Claim C10 — dense-only fallback of the services `retrieve` -/

/-- C10 (confirmed): in the services-based `retrieve` with query expansion
disabled, every `search_type` other than `"hybrid"` — including the
documented value `"sparse"` — makes the initial candidates come from the
dense-only search, and no third search path exists: the initial
candidates always come from either the hybrid or the dense oracle. -/
theorem C10_dense_only_fallback :
    (∀ (st : String) (eo ho dn : Except String (List SearchResult)),
      st ≠ "hybrid" → retrieve_initial false st eo ho dn = dn) ∧
    (∀ (st : String) (eo ho dn : Except String (List SearchResult)),
      retrieve_initial false st eo ho dn = ho ∨
      retrieve_initial false st eo ho dn = dn) := by
  constructor
  · intro st eo ho dn hst
    simp [retrieve_initial, hst]
  · intro st eo ho dn
    by_cases h : st = "hybrid" <;> simp [retrieve_initial, h]

/-- Witness for C10 at `search_type = "sparse"`: the dense oracle's
answer is returned even though the caller asked for sparse search. -/
theorem C10_dense_only_fallback_witness :
    retrieve_initial false "sparse" (.ok []) (.error "hybrid path")
      (.ok [fxRes "x" 1 "d" 0]) = .ok [fxRes "x" 1 "d" 0] :=
  C10_dense_only_fallback.1 "sparse" _ _ _ (by decide)

/-! ## Claim C7 — over-fetch limits of the per-collection sub-searches -/

/-- C7 counterexample: the services orchestrator's dense sub-search at
`limit = 30` queries the backend with limit `60`, not with
`min(30 * 2, 50) = 50` as the claim states. -/
theorem C7_overfetch_counterexample :
    ¬ (HybridSearchService.perform_dense_search
          (fun l => if l = 60 then [fxRes "r60" 1 "d" 0] else []) 30
        = (fun l => if l = 60 then [fxRes "r60" 1 "d" 0] else []) (min (30 * 2) 50)) := by
  norm_num [HybridSearchService.perform_dense_search]

/-- C7 (corrected): the over-fetch limit is `min(limit*2, 50)` only in
the legacy server's `perform_hybrid_search`; the services orchestrator's
dense and sparse sub-searches over-fetch with the uncapped `limit * 2`
(sparse only when a non-empty sparse vector exists, else no backend
call). -/
theorem C7_overfetch_amended :
    (∀ (backend : ℤ → List SearchResult) (limit : ℤ),
      HybridSearchService.perform_dense_search backend limit = backend (limit * 2)) ∧
    (∀ (v : SparseVec) (backend : ℤ → List SearchResult) (limit : ℤ),
      v.indices ≠ [] →
      HybridSearchService.perform_sparse_search (some v) backend limit
        = backend (limit * 2)) ∧
    (∀ (backend : ℤ → List SearchResult) (limit : ℤ),
      HybridSearchService.perform_sparse_search Option.none backend limit = []) ∧
    (∀ (hasSparse : Bool) (limit : ℤ),
      legacyServer.perform_hybrid_search_limits hasSparse limit
        = (min (limit * 2) 50,
           if hasSparse then some (min (limit * 2) 50) else Option.none)) := by
  refine ⟨fun _ _ => rfl, ?_, fun _ _ => rfl, fun _ _ => rfl⟩
  intro v backend limit hv
  simp [HybridSearchService.perform_sparse_search, hv]

/-- Witness for C7 (amended) at concrete inputs. -/
theorem C7_overfetch_amended_witness :
    HybridSearchService.perform_sparse_search (some ⟨[1], [1]⟩)
      (fun l => if l = 10 then [fxRes "s" 1 "d" 0] else []) 5
      = [fxRes "s" 1 "d" 0] ∧
    legacyServer.perform_hybrid_search_limits true 30 = (50, some 50) := by
  constructor
  · rw [C7_overfetch_amended.2.1 ⟨[1], [1]⟩ _ 5 (by decide)]
    norm_num
  · rw [C7_overfetch_amended.2.2.2 true 30]
    norm_num

/-! ## Claim C2 — max_score fusion -/

/-- C2 (code_bug): `ScoreFusionService.max_score_fusion` implements the
claimed semantics — the candidate keeps the maximum raw score across the
lists it appears in (first-seen object on ties) — but
`FusionService.fuse_results` with `FusionMethod.MAX_SCORE` hits the
dispatcher's `else` branch and silently performs *weighted* fusion: on
two singleton lists holding the same chunk with raw scores 10 and 2 it
returns fused score 1 (each singleton min-max-normalizes to `[1.0]` and
the equal weights sum to 1), not the maximum raw score 10. -/
theorem C2_max_score_dispatch_bug :
    (ScoreFusionService.max_score_fusion [[fxRes "p1" 10 "d" 7], [fxRes "p2" 2 "d" 7]]
      = [(fxRes "p1" 10 "d" 7, 10)]) ∧
    ((FusionService.fuse_results [fxRes "p1" 10 "d" 7, fxRes "p2" 2 "d" 7]
        [[0], [1]] .MAX_SCORE Option.none .MIN_MAX 60).2.map
        (fun i => (deref (FusionService.fuse_results
          [fxRes "p1" 10 "d" 7, fxRes "p2" 2 "d" 7]
          [[0], [1]] .MAX_SCORE Option.none .MIN_MAX 60).1 i).score)
      = [1]) := by
  constructor
  · norm_num +decide [ScoreFusionService.max_score_fusion,
      ResultDeduplicator.create_chunk_hash, fxRes, pyStr, pyTruthy, keysOf,
      updateSet, lookupD, sortDescBy, insertDescBy]
  · norm_num +decide [FusionService.fuse_results, FusionService.weighted_fusion,
      weightedAccum, weightedStep, finalizeFusion, dictStep, FusionService.normalize_scores, minMaxNormalize,
      finalizePairs, writeScores, modifyAt, deref, refHash,
      FusionService.create_result_hash, fxRes, pyStr, updateAdd, updateSet,
      lookupD, sortDescBy, insertDescBy, List.replicate, List.zip, List.zipWith]

/-! ## Claim C4 — merge keys of fusion and deduplication -/

/-- C4 counterexample: two results with the same `document_id`, *missing*
`chunk_id` keys, and different `page_number`s.  The claimed key
(`document_id + page_number` fallback when `chunk_id` is absent) keeps
them distinct, but `FusionService.create_result_hash` hashes both to
`"d_"` (a missing key yields `''`, which `is not None`), so weighted
fusion merges them into a single entry. -/
theorem C4_mergekey_counterexample :
    (FusionService.weighted_fusion [fxPageRes "q1" 1 "d" 1, fxPageRes "q2" (1/2) "d" 2]
        [[0, 1]] Option.none .MIN_MAX).2.length = 1 ∧
    specMergeKey (fxPageRes "q1" 1 "d" 1) ≠ specMergeKey (fxPageRes "q2" (1/2) "d" 2) := by
  constructor
  · norm_num +decide [FusionService.weighted_fusion, weightedAccum, weightedStep, finalizeFusion, dictStep,
      FusionService.normalize_scores, minMaxNormalize, finalizePairs,
      writeScores, modifyAt, deref, refHash, FusionService.create_result_hash,
      fxPageRes, pyStr, updateAdd, updateSet, lookupD, sortDescBy, insertDescBy,
      List.replicate, List.zip, List.zipWith]
  · decide

/-- C4 (corrected): the merge keys never involve the bare vector-store id
(they are functions of the payload alone), and are derived from
`document_id` and `chunk_id`; but the page-number fallback is applied
inconsistently: `FusionService.create_result_hash` falls back to
`document_id + page_number` only when the payload holds an explicit
`None` chunk id — a *missing* `chunk_id` key yields the key
`document_id + "_"`, ignoring the page — while
`ResultDeduplicator.create_chunk_hash` falls back whenever `chunk_id` is
falsy (missing, `None`, `''`, or `0`).  Consequently two results with the
same document id and the same non-`None` chunk id always share one
fusion hash regardless of their `id` or collection tag (and a
two-element fusion or dedup call merges exactly the equal-hash pairs),
while two results with the same truthy chunk id but different document
ids keep distinct keys. -/
theorem C4_mergekey_amended :
    (∀ (r : SearchResult) (v : PyVal), r.payload.chunk_id = some v →
      v ≠ PyVal.none →
      FusionService.create_result_hash r
        = pyStr (r.payload.document_id.getD (.str "")) ++ "_" ++ pyStr v) ∧
    (∀ r : SearchResult, r.payload.chunk_id = Option.none →
      FusionService.create_result_hash r
        = pyStr (r.payload.document_id.getD (.str "")) ++ "_") ∧
    (∀ r : SearchResult, r.payload.chunk_id = some PyVal.none →
      FusionService.create_result_hash r
        = pyStr (r.payload.document_id.getD (.str "")) ++ "_"
            ++ pyStr (r.payload.page_number.getD (.str ""))) ∧
    (∀ (r : SearchResult) (v : PyVal), r.payload.chunk_id = some v →
      pyTruthy v = true →
      ResultDeduplicator.create_chunk_hash r
        = pyStr (r.payload.document_id.getD (.str "")) ++ "_" ++ pyStr v) ∧
    (∀ r : SearchResult,
      (r.payload.chunk_id = Option.none ∨
        ∃ v, r.payload.chunk_id = some v ∧ pyTruthy v = false) →
      ResultDeduplicator.create_chunk_hash r
        = pyStr (r.payload.document_id.getD (.str "")) ++ "_"
            ++ pyStr (r.payload.page_number.getD (.str ""))) ∧
    (∀ r1 r2 : SearchResult, r1.payload = r2.payload →
      FusionService.create_result_hash r1 = FusionService.create_result_hash r2 ∧
      ResultDeduplicator.create_chunk_hash r1 = ResultDeduplicator.create_chunk_hash r2) ∧
    (∀ (r1 r2 : SearchResult) (q1 q2 : String) (i1 i2 : ℕ),
      (ResultDeduplicator.deduplicate_results [(r1, q1, i1), (r2, q2, i2)]).length
        = if ResultDeduplicator.create_chunk_hash r1
            = ResultDeduplicator.create_chunk_hash r2 then 1 else 2) ∧
    (∀ (H : List SearchResult) (i j : ℕ),
      (FusionService.weighted_fusion H [[i], [j]] Option.none .MIN_MAX).2.length
        = if refHash H i = refHash H j then 1 else 2) ∧
    (∀ (r1 r2 : SearchResult) (v : PyVal),
      r1.payload.chunk_id = some v → r2.payload.chunk_id = some v →
      v ≠ PyVal.none →
      pyStr (r1.payload.document_id.getD (.str ""))
        ≠ pyStr (r2.payload.document_id.getD (.str "")) →
      FusionService.create_result_hash r1 ≠ FusionService.create_result_hash r2) := by
  have hash_some : ∀ (r : SearchResult) (v : PyVal), r.payload.chunk_id = some v →
      v ≠ PyVal.none →
      FusionService.create_result_hash r
        = pyStr (r.payload.document_id.getD (.str "")) ++ "_" ++ pyStr v := by
    intro r v hc hv
    simp [FusionService.create_result_hash, hc, hv]
  refine ⟨hash_some, ?_, ?_, ?_, ?_, ?_, ?_, ?_, ?_⟩
  · intro r hc
    have : (PyVal.str "") ≠ PyVal.none := by decide
    simp [FusionService.create_result_hash, hc, this, pyStr]
  · intro r hc
    simp [FusionService.create_result_hash, hc]
  · intro r v hc hv
    simp [ResultDeduplicator.create_chunk_hash, hc, hv]
  · intro r hc
    rcases hc with hc | ⟨v, hc, hv⟩
    · have : pyTruthy (PyVal.str "") = false := by decide
      simp [ResultDeduplicator.create_chunk_hash, hc, this]
    · simp [ResultDeduplicator.create_chunk_hash, hc, hv]
  · intro r1 r2 hp
    constructor
    · simp [FusionService.create_result_hash, hp]
    · simp [ResultDeduplicator.create_chunk_hash, hp]
  · intro r1 r2 q1 q2 i1 i2
    by_cases h : ResultDeduplicator.create_chunk_hash r1
        = ResultDeduplicator.create_chunk_hash r2
    · rw [if_pos h]
      by_cases hsc : (r1.score : ℚ) < r2.score <;>
        simp [ResultDeduplicator.deduplicate_results, keysOf, h, updateSet,
          lookupD, hsc]
    · rw [if_neg h]
      have h' : ¬ ResultDeduplicator.create_chunk_hash r2
          = ResultDeduplicator.create_chunk_hash r1 := fun hh => h hh.symm
      simp [ResultDeduplicator.deduplicate_results, keysOf, h, h', updateSet,
        lookupD]
  · intro H i j
    have hsingle : ∀ m : ℕ, FusionService.normalize_scores
        [(deref H m).score] .MIN_MAX = [1] := by
      intro m
      show minMaxNormalize [(deref H m).score] = [1]
      rw [minMaxNormalize_cons]
      simp
    by_cases h : refHash H i = refHash H j
    · rw [if_pos h]
      simp only [FusionService.weighted_fusion, weightedAccum, weightedStep, finalizeFusion, dictStep,
        finalizePairs, List.replicate, List.zip, List.zipWith, List.foldl_cons,
        List.foldl_nil, List.map_cons, List.map_nil, List.sum_cons,
        List.sum_nil, hsingle]
      norm_num [updateAdd, updateSet, lookupD, h, writeScores, sortDescBy,
        insertDescBy, length_insertDescBy]
      split_ifs <;> simp_all
    · rw [if_neg h]
      have h' : ¬ refHash H j = refHash H i := fun hh => h hh.symm
      simp only [FusionService.weighted_fusion, weightedAccum, weightedStep, finalizeFusion, dictStep,
        finalizePairs, List.replicate, List.zip, List.zipWith, List.foldl_cons,
        List.foldl_nil, List.map_cons, List.map_nil, List.sum_cons,
        List.sum_nil, hsingle]
      norm_num [updateAdd, updateSet, lookupD, h, h', writeScores, sortDescBy,
        insertDescBy, length_insertDescBy]
      split_ifs <;> simp_all
  · intro r1 r2 v h1 h2 hv hd heq
    rw [hash_some r1 v h1 hv, hash_some r2 v h2 hv] at heq
    have hq := congrArg String.data heq
    simp only [String.data_append] at hq
    have hq2 := List.append_left_injective (pyStr v).data hq
    exact hd (String.ext (List.append_left_injective "_".data hq2))

/-- Witness for C4 (amended) at concrete inputs: the primary key of a
chunk result, the dedup fallback for a missing chunk id, a two-element
dedup merge, and key distinctness across documents. -/
theorem C4_mergekey_amended_witness :
    FusionService.create_result_hash (fxRes "p1" 10 "d" 7) = "d" ++ "_" ++ "7" ∧
    ResultDeduplicator.create_chunk_hash (fxPageRes "q1" 1 "d" 1) = "d" ++ "_" ++ "1" ∧
    (ResultDeduplicator.deduplicate_results
      [(fxRes "p1" 10 "d" 7, "q", 0), (fxRes "p2" 2 "d" 7, "q", 1)]).length = 1 ∧
    FusionService.create_result_hash (fxRes "p1" 10 "d" 7)
      ≠ FusionService.create_result_hash (fxRes "p3" 10 "e" 7) := by
  refine ⟨?_, ?_, ?_, ?_⟩
  · rw [C4_mergekey_amended.1 (fxRes "p1" 10 "d" 7) (.int 7) (by decide) (by decide)]
    decide
  · rw [C4_mergekey_amended.2.2.2.2.1 (fxPageRes "q1" 1 "d" 1) (Or.inl (by decide))]
    decide
  · rw [C4_mergekey_amended.2.2.2.2.2.2.1 (fxRes "p1" 10 "d" 7) (fxRes "p2" 2 "d" 7) "q" "q" 0 1]
    rw [if_pos (by decide)]
  · exact C4_mergekey_amended.2.2.2.2.2.2.2.2 (fxRes "p1" 10 "d" 7)
      (fxRes "p3" 10 "e" 7) (.int 7) (by decide) (by decide) (by decide) (by decide)

/-! ## Helper lemmas: the full accumulations and the fusion tail -/

theorem rrfFold_aux_keysEq {α : Type} (hash : α → String) (k : ℚ)
    (groups : List (List α)) :
    ∀ acc : List (String × ℚ) × List (String × α),
      keysOf acc.1 = keysOf acc.2 →
      keysOf (groups.foldl (rrfStep hash k) acc).1
        = keysOf (groups.foldl (rrfStep hash k) acc).2 := by
  induction groups with
  | nil => intro acc h; simpa
  | cons g gs ih =>
      intro acc h
      simp only [List.foldl_cons]
      exact ih _ (foldl_dictStep_keysEq (fun p : ℕ × α => hash p.2)
        (fun p => 1 / ((p.1 : ℚ) + 1 + k)) Prod.snd g.enum acc h)

theorem rrfFold_aux_nodup {α : Type} (hash : α → String) (k : ℚ)
    (groups : List (List α)) :
    ∀ acc : List (String × ℚ) × List (String × α),
      (keysOf acc.1).Nodup →
      (keysOf (groups.foldl (rrfStep hash k) acc).1).Nodup := by
  induction groups with
  | nil => intro acc h; simpa
  | cons g gs ih =>
      intro acc h
      simp only [List.foldl_cons]
      exact ih _ (foldl_dictStep_keys_nodup (fun p : ℕ × α => hash p.2)
        (fun p => 1 / ((p.1 : ℚ) + 1 + k)) Prod.snd g.enum acc h)

theorem rrfFold_aux_ob_forall {α : Type} (hash : α → String) (k : ℚ)
    (groups : List (List α)) (P : String × α → Prop)
    (hP : ∀ g ∈ groups, ∀ x ∈ g, P (hash x, x)) :
    ∀ acc : List (String × ℚ) × List (String × α),
      (∀ q ∈ acc.2, P q) →
      ∀ q ∈ (groups.foldl (rrfStep hash k) acc).2, P q := by
  induction groups with
  | nil => intro acc h; exact h
  | cons g gs ih =>
      intro acc h
      simp only [List.foldl_cons]
      refine ih (fun g' hg' => hP g' (List.mem_cons_of_mem _ hg')) _ ?_
      refine foldl_dictStep_ob_forall (fun p : ℕ × α => hash p.2)
        (fun p => 1 / ((p.1 : ℚ) + 1 + k)) Prod.snd g.enum P _ h ?_
      intro p hp
      exact hP g (List.mem_cons_self _ _) p.2 (List.snd_mem_of_mem_enum hp)

theorem weightedAccum_aux_keysEq (H : List SearchResult)
    (norm : NormalizationMethod) (gws : List (List ℕ × ℚ)) :
    ∀ acc : List (String × ℚ) × List (String × ℕ),
      keysOf acc.1 = keysOf acc.2 →
      keysOf (gws.foldl (weightedStep H norm) acc).1
        = keysOf (gws.foldl (weightedStep H norm) acc).2 := by
  induction gws with
  | nil => intro acc h; simpa
  | cons gw gws ih =>
      intro acc h
      simp only [List.foldl_cons]
      refine ih _ ?_
      unfold weightedStep
      by_cases hg : gw.1 = []
      · simpa [hg]
      · rw [if_neg hg]
        exact foldl_dictStep_keysEq (fun p : ℕ × ℚ => refHash H p.1)
          (fun p => gw.2 * p.2) Prod.fst _ acc h

theorem weightedAccum_aux_nodup (H : List SearchResult)
    (norm : NormalizationMethod) (gws : List (List ℕ × ℚ)) :
    ∀ acc : List (String × ℚ) × List (String × ℕ),
      (keysOf acc.1).Nodup →
      (keysOf (gws.foldl (weightedStep H norm) acc).1).Nodup := by
  induction gws with
  | nil => intro acc h; simpa
  | cons gw gws ih =>
      intro acc h
      simp only [List.foldl_cons]
      refine ih _ ?_
      unfold weightedStep
      by_cases hg : gw.1 = []
      · simpa [hg]
      · rw [if_neg hg]
        exact foldl_dictStep_keys_nodup (fun p : ℕ × ℚ => refHash H p.1)
          (fun p => gw.2 * p.2) Prod.fst _ acc h

theorem weightedAccum_aux_ob_forall (H : List SearchResult)
    (norm : NormalizationMethod) (gws : List (List ℕ × ℚ))
    (P : String × ℕ → Prop)
    (hP : ∀ gw ∈ gws, ∀ i ∈ gw.1, P (refHash H i, i)) :
    ∀ acc : List (String × ℚ) × List (String × ℕ),
      (∀ q ∈ acc.2, P q) →
      ∀ q ∈ (gws.foldl (weightedStep H norm) acc).2, P q := by
  induction gws with
  | nil => intro acc h; exact h
  | cons gw gws ih =>
      intro acc h
      simp only [List.foldl_cons]
      refine ih (fun g' hg' => hP g' (List.mem_cons_of_mem _ hg')) _ ?_
      unfold weightedStep
      by_cases hg : gw.1 = []
      · rw [if_pos hg]; exact h
      · rw [if_neg hg]
        refine foldl_dictStep_ob_forall (fun p : ℕ × ℚ => refHash H p.1)
          (fun p => gw.2 * p.2) Prod.fst _ P _ h ?_
        intro p hp
        exact hP gw (List.mem_cons_self _ _) p.1 (List.of_mem_zip hp).1

theorem finalizeFusion_frame (H : List SearchResult)
    (acc : List (String × ℚ) × List (String × ℕ)) (allRefs : List ℕ)
    (hkeq : keysOf acc.1 = keysOf acc.2)
    (hob : ∀ q ∈ acc.2, q.2 ∈ allRefs) (j : ℕ) (hj : j ∉ allRefs) :
    deref (finalizeFusion H acc).1 j = deref H j := by
  apply writeScores_deref_notMem
  intro hmem
  unfold finalizePairs at hmem
  rw [List.map_map] at hmem
  rcases List.mem_map.mp hmem with ⟨⟨h, s⟩, hhs, hj'⟩
  have hk1 : h ∈ keysOf acc.1 := List.mem_map_of_mem Prod.fst hhs
  have hk2 : h ∈ keysOf acc.2 := hkeq ▸ hk1
  have := hob _ (mem_of_lookupD acc.2 h 0 hk2)
  exact hj (hj' ▸ this)

theorem finalizeFusion_out_mem (H : List SearchResult)
    (acc : List (String × ℚ) × List (String × ℕ)) (allRefs : List ℕ)
    (hkeq : keysOf acc.1 = keysOf acc.2)
    (hob : ∀ q ∈ acc.2, q.2 ∈ allRefs) :
    ∀ i ∈ (finalizeFusion H acc).2, i ∈ allRefs := by
  intro i hi
  have hi2 : i ∈ (finalizePairs acc.1 acc.2).map (·.1) :=
    (mem_sortDescBy _ i _).mp hi
  unfold finalizePairs at hi2
  rw [List.map_map] at hi2
  rcases List.mem_map.mp hi2 with ⟨⟨h, s⟩, hhs, hj'⟩
  have hk1 : h ∈ keysOf acc.1 := List.mem_map_of_mem Prod.fst hhs
  have hk2 : h ∈ keysOf acc.2 := hkeq ▸ hk1
  have := hob _ (mem_of_lookupD acc.2 h 0 hk2)
  exact hj' ▸ this

theorem finalizeFusion_score (H : List SearchResult)
    (acc : List (String × ℚ) × List (String × ℕ))
    (hnd : (keysOf acc.1).Nodup)
    (hkeq : keysOf acc.1 = keysOf acc.2)
    (hhash : ∀ q ∈ acc.2, refHash H q.2 = q.1)
    (hbound : ∀ q ∈ acc.2, q.2 < H.length) :
    ∀ h s, (h, s) ∈ acc.1 →
      (deref (finalizeFusion H acc).1 (lookupD acc.2 h 0)).score = s := by
  intro h s hhs
  have hlookup : ∀ h' ∈ keysOf acc.1, (h', lookupD acc.2 h' 0) ∈ acc.2 := by
    intro h' hk
    exact mem_of_lookupD acc.2 h' 0 (hkeq ▸ hk)
  have hndrefs : ((finalizePairs acc.1 acc.2).map Prod.fst).Nodup := by
    unfold finalizePairs
    rw [List.map_map]
    have hacc1nd : acc.1.Nodup :=
      List.Nodup.of_map Prod.fst (show (List.map Prod.fst acc.1).Nodup from hnd)
    refine List.Nodup.map_on ?_ hacc1nd
    intro x hx y hy hxy
    have hxy' : lookupD acc.2 x.1 0 = lookupD acc.2 y.1 0 := hxy
    have hx1 : x.1 ∈ keysOf acc.1 := List.mem_map_of_mem Prod.fst hx
    have hy1 : y.1 ∈ keysOf acc.1 := List.mem_map_of_mem Prod.fst hy
    have hxk := hhash _ (hlookup x.1 hx1)
    have hyk := hhash _ (hlookup y.1 hy1)
    have hkey : x.1 = y.1 := by rw [← hxk, ← hyk, hxy']
    have hsx : lookupD acc.1 x.1 (0 : ℚ) = x.2 :=
      lookupD_mem_of_nodup _ _ _ _ hnd (by simpa using hx)
    have hsy : lookupD acc.1 y.1 (0 : ℚ) = y.2 :=
      lookupD_mem_of_nodup _ _ _ _ hnd (by simpa using hy)
    have hsnd : x.2 = y.2 := by rw [← hsx, ← hsy, hkey]
    exact Prod.ext hkey hsnd
  have hpair : (lookupD acc.2 h 0, s) ∈ finalizePairs acc.1 acc.2 := by
    unfold finalizePairs
    exact List.mem_map.mpr ⟨(h, s), hhs, rfl⟩
  have hb : lookupD acc.2 h 0 < H.length :=
    hbound _ (hlookup h (List.mem_map_of_mem Prod.fst hhs))
  show (deref (writeScores H (finalizePairs acc.1 acc.2)) (lookupD acc.2 h 0)).score = s
  rw [writeScores_deref_mem H _ _ s hndrefs hpair hb]

theorem weighted_fusion_frame (H : List SearchResult)
    (groups : List (List ℕ)) (w : Option (List ℚ)) (norm : NormalizationMethod)
    (j : ℕ) (hj : j ∉ groups.flatten) :
    deref (FusionService.weighted_fusion H groups w norm).1 j = deref H j := by
  unfold FusionService.weighted_fusion
  by_cases hg : groups = [] ∨ groups.all (· = [])
  · rw [if_pos hg]
  · rw [if_neg hg]
    refine finalizeFusion_frame H _ groups.flatten ?_ ?_ j hj
    · exact weightedAccum_aux_keysEq H norm _ ([], []) rfl
    · refine weightedAccum_aux_ob_forall H norm _
        (fun q => q.2 ∈ groups.flatten) ?_ ([], []) (by simp)
      intro gw hgw i hi
      refine List.mem_join.mpr ⟨gw.1, ?_, hi⟩
      exact (List.of_mem_zip (show (gw.1, gw.2) ∈ _ from hgw)).1

theorem weighted_fusion_out_mem (H : List SearchResult)
    (groups : List (List ℕ)) (w : Option (List ℚ)) (norm : NormalizationMethod) :
    ∀ i ∈ (FusionService.weighted_fusion H groups w norm).2, i ∈ groups.flatten := by
  unfold FusionService.weighted_fusion
  by_cases hg : groups = [] ∨ groups.all (· = [])
  · rw [if_pos hg]; intro i hi; simp at hi
  · rw [if_neg hg]
    refine finalizeFusion_out_mem H _ groups.flatten ?_ ?_
    · exact weightedAccum_aux_keysEq H norm _ ([], []) rfl
    · refine weightedAccum_aux_ob_forall H norm _
        (fun q => q.2 ∈ groups.flatten) ?_ ([], []) (by simp)
      intro gw hgw i hi
      refine List.mem_join.mpr ⟨gw.1, ?_, hi⟩
      exact (List.of_mem_zip (show (gw.1, gw.2) ∈ _ from hgw)).1

theorem rrf_fusion_frame (H : List SearchResult) (groups : List (List ℕ))
    (k : ℚ) (j : ℕ) (hj : j ∉ groups.flatten) :
    deref (FusionService.reciprocal_rank_fusion H groups k).1 j = deref H j := by
  unfold FusionService.reciprocal_rank_fusion
  by_cases hg : groups = [] ∨ groups.all (· = [])
  · rw [if_pos hg]
  · rw [if_neg hg]
    refine finalizeFusion_frame H _ groups.flatten ?_ ?_ j hj
    · exact rrfFold_aux_keysEq _ _ _ ([], []) rfl
    · refine rrfFold_aux_ob_forall (refHash H) k groups
        (fun q => q.2 ∈ groups.flatten) ?_ ([], []) (by simp)
      intro g hg' x hx
      exact List.mem_join.mpr ⟨g, hg', hx⟩

theorem rrf_fusion_out_mem (H : List SearchResult) (groups : List (List ℕ))
    (k : ℚ) :
    ∀ i ∈ (FusionService.reciprocal_rank_fusion H groups k).2, i ∈ groups.flatten := by
  unfold FusionService.reciprocal_rank_fusion
  by_cases hg : groups = [] ∨ groups.all (· = [])
  · rw [if_pos hg]; intro i hi; simp at hi
  · rw [if_neg hg]
    refine finalizeFusion_out_mem H _ groups.flatten ?_ ?_
    · exact rrfFold_aux_keysEq _ _ _ ([], []) rfl
    · refine rrfFold_aux_ob_forall (refHash H) k groups
        (fun q => q.2 ∈ groups.flatten) ?_ ([], []) (by simp)
      intro g hg' x hx
      exact List.mem_join.mpr ⟨g, hg', hx⟩

theorem fuse_results_frame (H : List SearchResult) (groups : List (List ℕ))
    (fm : FusionMethod) (w : Option (List ℚ)) (norm : NormalizationMethod)
    (k : ℚ) (j : ℕ) (hj : j ∉ groups.flatten) :
    deref (FusionService.fuse_results H groups fm w norm k).1 j = deref H j := by
  cases fm with
  | WEIGHTED => exact weighted_fusion_frame H groups w norm j hj
  | RRF => exact rrf_fusion_frame H groups k j hj
  | MAX_SCORE => exact weighted_fusion_frame H groups w norm j hj

theorem fuse_results_out_mem (H : List SearchResult) (groups : List (List ℕ))
    (fm : FusionMethod) (w : Option (List ℚ)) (norm : NormalizationMethod)
    (k : ℚ) :
    ∀ i ∈ (FusionService.fuse_results H groups fm w norm k).2, i ∈ groups.flatten := by
  cases fm with
  | WEIGHTED => exact weighted_fusion_out_mem H groups w norm
  | RRF => exact rrf_fusion_out_mem H groups k
  | MAX_SCORE => exact weighted_fusion_out_mem H groups w norm

/-! ## Claim C9 — `fuse_query_variants` and shared candidate objects -/

/-- C9 counterexample: a single variant list holding one result with raw
score 5; after `fuse_query_variants(..., "rrf")` the result object's
`score` field holds the fused RRF score `1/61`, not its original value —
the fusion machinery writes the fused score back into the shared object
(`result_obj.score = final_score`). -/
theorem C9_mutation_counterexample :
    (deref (FusionService.fuse_query_variants [fxRes "q" 5 "d" 1] [[0]] "rrf"
        Option.none).1 0).score ≠ (5 : ℚ) := by
  norm_num +decide [FusionService.fuse_query_variants, FusionService.fuse_results,
    FusionService.reciprocal_rank_fusion, rrfFold, rrfStep, dictStep,
    finalizeFusion, finalizePairs, writeScores, modifyAt, deref, refHash,
    FusionService.create_result_hash, fxRes, pyStr, updateAdd, updateSet,
    lookupD, sortDescBy, insertDescBy, List.enum, List.enumFrom]

/-- C9 (corrected): `fuse_query_variants` does return `(result, score)`
pairs, and result objects outside the variant lists are untouched, but
the shared candidate objects that *are* fused get their `score` field
overwritten with the fused score (after all variant lists have been
read): each returned pair's score equals its object's post-call `score`
field, every returned object comes from the variant lists, and every
reference not occurring in any variant list is unchanged on the heap. -/
theorem C9_fuse_query_variants_amended :
    ∀ (H : List SearchResult) (groups : List (List ℕ)) (m : String)
      (w : Option (List ℚ)),
      (∀ p ∈ (FusionService.fuse_query_variants H groups m w).2,
        p.2 = (deref (FusionService.fuse_query_variants H groups m w).1 p.1).score) ∧
      (∀ p ∈ (FusionService.fuse_query_variants H groups m w).2,
        p.1 ∈ groups.flatten) ∧
      (∀ j, j ∉ groups.flatten →
        deref (FusionService.fuse_query_variants H groups m w).1 j = deref H j) := by
  intro H groups m w
  refine ⟨?_, ?_, ?_⟩
  · intro p hp
    unfold FusionService.fuse_query_variants at hp ⊢
    rcases List.mem_map.mp hp with ⟨i, _, rfl⟩
    rfl
  · intro p hp
    unfold FusionService.fuse_query_variants at hp
    rcases List.mem_map.mp hp with ⟨i, hi, rfl⟩
    exact fuse_results_out_mem H groups _ w .MIN_MAX 60 i hi
  · intro j hj
    unfold FusionService.fuse_query_variants
    exact fuse_results_frame H groups _ w .MIN_MAX 60 j hj

/-- Witness for C9 (amended): concrete two-variant input sharing one
chunk; reference 2 is outside the variant lists and keeps its score. -/
theorem C9_fuse_query_variants_amended_witness :
    (∀ p ∈ (FusionService.fuse_query_variants
        [fxRes "q" 5 "d" 1, fxRes "r" 3 "d" 2, fxRes "s" 7 "d" 3] [[0], [1]] "rrf"
        Option.none).2,
      p.2 = (deref (FusionService.fuse_query_variants
        [fxRes "q" 5 "d" 1, fxRes "r" 3 "d" 2, fxRes "s" 7 "d" 3] [[0], [1]] "rrf"
        Option.none).1 p.1).score) ∧
    deref (FusionService.fuse_query_variants
        [fxRes "q" 5 "d" 1, fxRes "r" 3 "d" 2, fxRes "s" 7 "d" 3] [[0], [1]] "rrf"
        Option.none).1 2 = fxRes "s" 7 "d" 3 := by
  constructor
  · exact (C9_fuse_query_variants_amended
      [fxRes "q" 5 "d" 1, fxRes "r" 3 "d" 2, fxRes "s" 7 "d" 3] [[0], [1]] "rrf"
      Option.none).1
  · rw [(C9_fuse_query_variants_amended
      [fxRes "q" 5 "d" 1, fxRes "r" 3 "d" 2, fxRes "s" 7 "d" 3] [[0], [1]] "rrf"
      Option.none).2.2 2 (by decide)]
    rfl

/-! ## Claim C3 — `fuse_dense_sparse` with an empty sparse list -/

theorem weights_self_map (w : ℚ) :
    [w, 1 - w].map (· / ([w, 1 - w].sum)) = [w, 1 - w] := by
  have hsum : [w, 1 - w].sum = 1 := by simp
  rw [hsum]
  simp

theorem weighted_fusion_dense_only (H : List SearchResult) (dense : List ℕ)
    (w : ℚ) (hne : dense ≠ []) (hnd : (dense.map (refHash H)).Nodup) :
    FusionService.weighted_fusion H [dense, []] (some [w, 1 - w]) .MIN_MAX
      = (writeScores H
          ((dense.zip (minMaxNormalize (dense.map fun i => (deref H i).score))).map
            (fun p => (p.1, w * p.2))),
         sortDescBy
          (fun i => (deref (writeScores H
            ((dense.zip (minMaxNormalize (dense.map fun i => (deref H i).score))).map
              (fun p => (p.1, w * p.2)))) i).score)
          dense) := by
  have hlen : dense.length
      ≤ (minMaxNormalize (dense.map fun i => (deref H i).score)).length := by
    rw [minMaxNormalize_length, List.length_map]
  have hmapfst : (dense.zip (minMaxNormalize (dense.map fun i => (deref H i).score))).map
        (fun p : ℕ × ℚ => refHash H p.1) = dense.map (refHash H) := by
    rw [show (fun p : ℕ × ℚ => refHash H p.1) = refHash H ∘ Prod.fst from rfl,
      ← List.map_map, List.map_fst_zip _ _ hlen]
  have hfresh := foldl_dictStep_fresh (fun p : ℕ × ℚ => refHash H p.1)
    (fun p => w * p.2) Prod.fst
    (dense.zip (minMaxNormalize (dense.map fun i => (deref H i).score)))
    ([], []) (by rw [hmapfst]; exact hnd) (by simp [keysOf]) (by simp [keysOf])
  have haccum : weightedAccum H [(dense, w), ([], 1 - w)] .MIN_MAX
      = ((dense.zip (minMaxNormalize (dense.map fun i => (deref H i).score))).map
          (fun p => (refHash H p.1, w * p.2)),
         (dense.zip (minMaxNormalize (dense.map fun i => (deref H i).score))).map
          (fun p => (refHash H p.1, p.1))) := by
    unfold weightedAccum
    rw [List.foldl_cons, List.foldl_cons, List.foldl_nil]
    rw [show weightedStep H .MIN_MAX ([], []) (dense, w)
        = (dense.zip (FusionService.normalize_scores
            (dense.map fun i => (deref H i).score) .MIN_MAX)).foldl
          (fun acc p => dictStep (refHash H p.1) (w * p.2) p.1 acc) ([], [])
      from by simp [weightedStep, hne]]
    rw [show FusionService.normalize_scores
        (dense.map fun i => (deref H i).score) .MIN_MAX
        = minMaxNormalize (dense.map fun i => (deref H i).score) from rfl]
    rw [hfresh]
    rw [show weightedStep H .MIN_MAX _ ([], 1 - w) = _ from if_pos rfl]
    simp
  have hpairs : finalizePairs
      ((dense.zip (minMaxNormalize (dense.map fun i => (deref H i).score))).map
        (fun p => (refHash H p.1, w * p.2)))
      ((dense.zip (minMaxNormalize (dense.map fun i => (deref H i).score))).map
        (fun p => (refHash H p.1, p.1)))
      = (dense.zip (minMaxNormalize (dense.map fun i => (deref H i).score))).map
          (fun p => (p.1, w * p.2)) := by
    unfold finalizePairs
    rw [List.map_map]
    refine List.map_congr_left ?_
    intro p hp
    show (lookupD ((dense.zip _).map (fun p => (refHash H p.1, p.1))) (refHash H p.1) 0,
        w * p.2) = (p.1, w * p.2)
    rw [lookupD_map_pair (fun p : ℕ × ℚ => refHash H p.1) Prod.fst _ 0
      (by rw [hmapfst]; exact hnd) p hp]
  unfold FusionService.weighted_fusion
  rw [if_neg (by simp [hne])]
  show finalizeFusion H (weightedAccum H
      ([dense, []].zip ([w, 1 - w].map (· / ([w, 1 - w].sum)))) .MIN_MAX) = _
  rw [weights_self_map]
  rw [show [dense, []].zip [w, 1 - w] = [(dense, w), ([], 1 - w)] from rfl]
  rw [haccum]
  unfold finalizeFusion
  rw [hpairs]
  refine Prod.ext rfl ?_
  show sortDescBy _ (((dense.zip _).map (fun p => (p.1, w * p.2))).map Prod.fst) = _
  rw [List.map_map,
    show (Prod.fst ∘ fun p : ℕ × ℚ => (p.1, w * p.2)) = Prod.fst from rfl,
    List.map_fst_zip _ _ hlen]

/-- C3 counterexample: `fuse_dense_sparse` on a non-empty dense list and
an empty sparse list does *not* return the dense results with their
scores unchanged: the first result's score becomes
`dense_weight * 1.0 = 3/5`, not its raw `9/10`. -/
theorem C3_fuse_dense_sparse_counterexample :
    (deref (FusionService.fuse_dense_sparse
        [fxRes "a" (9/10) "d" 1, fxRes "b" (7/10) "d" 2] [0, 1] [] Option.none
        .WEIGHTED .MIN_MAX).1 0).score
      ≠ (deref [fxRes "a" (9/10) "d" 1, fxRes "b" (7/10) "d" 2] 0).score := by
  norm_num +decide [FusionService.fuse_dense_sparse, FusionService.fuse_results,
    FusionService.weighted_fusion, FusionService.default_dense_weight,
    weightedAccum, weightedStep, finalizeFusion, dictStep,
    FusionService.normalize_scores, minMaxNormalize, finalizePairs,
    writeScores, modifyAt, deref, refHash, FusionService.create_result_hash,
    fxRes, pyStr, updateAdd, updateSet, lookupD, sortDescBy, insertDescBy,
    List.replicate, List.zip, List.zipWith]

/-- C3 (corrected): calling `fuse_dense_sparse` with an empty sparse list
keeps the same candidates in the same order (for a dense list with
distinct hashes, in-range references, descending scores, and a
non-negative dense weight), but replaces every score by
`dense_weight * min_max_normalized_score`; objects outside the dense
list are untouched.  The orchestrator's per-collection path
(`_search_collection_parallel`) never calls the fusion when sparse is
empty: it returns the dense results themselves, unchanged except for the
collection-id tag (scores and payloads preserved). -/
theorem C3_fuse_dense_sparse_amended :
    (∀ (H : List SearchResult) (dense : List ℕ) (dw : Option ℚ),
      dense ≠ [] →
      (dense.map (refHash H)).Nodup →
      (∀ i ∈ dense, i < H.length) →
      List.Pairwise (fun a b => (deref H b).score ≤ (deref H a).score) dense →
      0 ≤ dw.getD FusionService.default_dense_weight →
      (FusionService.fuse_dense_sparse H dense [] dw .WEIGHTED .MIN_MAX).2 = dense ∧
      (∀ pos, pos < dense.length →
        (deref (FusionService.fuse_dense_sparse H dense [] dw .WEIGHTED .MIN_MAX).1
            (dense.getD pos 0)).score
          = dw.getD FusionService.default_dense_weight
            * (minMaxNormalize (dense.map fun i => (deref H i).score)).getD pos 0) ∧
      (∀ j, j ∉ dense →
        deref (FusionService.fuse_dense_sparse H dense [] dw .WEIGHTED .MIN_MAX).1 j
          = deref H j)) ∧
    (∀ (H : List SearchResult) (dense : List ℕ) (w : ℚ) (nm fm cid : String),
      HybridSearchService.search_collection_parallel H dense [] w nm fm cid
        = (tagResults H dense cid, dense)) ∧
    (∀ (H : List SearchResult) (refs : List ℕ) (cid : String) (j : ℕ),
      (deref (tagResults H refs cid) j).score = (deref H j).score ∧
      (deref (tagResults H refs cid) j).payload = (deref H j).payload) := by
  refine ⟨?_, ?_, ?_⟩
  · intro H dense dw hne hnd hbound hsorted hw
    have hfd : FusionService.fuse_dense_sparse H dense [] dw .WEIGHTED .MIN_MAX
        = FusionService.weighted_fusion H [dense, []]
            (some [dw.getD FusionService.default_dense_weight,
              1 - dw.getD FusionService.default_dense_weight]) .MIN_MAX := rfl
    have hcomp := weighted_fusion_dense_only H dense
      (dw.getD FusionService.default_dense_weight) hne hnd
    have hlen : dense.length
        ≤ (minMaxNormalize (dense.map fun i => (deref H i).score)).length := by
      rw [minMaxNormalize_length, List.length_map]
    have hpairsfst : ((dense.zip (minMaxNormalize
          (dense.map fun i => (deref H i).score))).map
          (fun p => (p.1, dw.getD FusionService.default_dense_weight * p.2))).map
          Prod.fst = dense := by
      rw [List.map_map,
        show (Prod.fst ∘ fun p : ℕ × ℚ =>
          (p.1, dw.getD FusionService.default_dense_weight * p.2)) = Prod.fst from rfl,
        List.map_fst_zip _ _ hlen]
    have hpairnd : (((dense.zip (minMaxNormalize
          (dense.map fun i => (deref H i).score))).map
          (fun p => (p.1, dw.getD FusionService.default_dense_weight * p.2))).map
          Prod.fst).Nodup := by
      rw [hpairsfst]
      exact List.Nodup.of_map _ hnd
    have hkey : ∀ p ∈ (dense.zip (minMaxNormalize
          (dense.map fun i => (deref H i).score))).map
          (fun p => (p.1, dw.getD FusionService.default_dense_weight * p.2)),
        (deref (writeScores H ((dense.zip (minMaxNormalize
            (dense.map fun i => (deref H i).score))).map
            (fun p => (p.1, dw.getD FusionService.default_dense_weight * p.2)))) p.1).score
          = p.2 := by
      intro p hp
      have hb : p.1 < H.length := by
        refine hbound p.1 ?_
        have := List.mem_map_of_mem Prod.fst hp
        rw [hpairsfst] at this
        exact this
      rw [writeScores_deref_mem H _ p.1 p.2 hpairnd (by simpa using hp) hb]
    refine ⟨?_, ?_, ?_⟩
    · rw [hfd, hcomp]
      refine sortDescBy_of_sorted _ dense ?_
      have hnsp : List.Pairwise (fun a b => b ≤ a)
          (minMaxNormalize (dense.map fun i => (deref H i).score)) :=
        minMaxNormalize_pairwise _ (List.pairwise_map.mpr hsorted)
      have hzip := pairwise_zip_snd (fun a b : ℚ => b ≤ a) dense _ hnsp
      have hpairsp : List.Pairwise (fun a b : ℕ × ℚ => b.2 ≤ a.2)
          ((dense.zip (minMaxNormalize (dense.map fun i => (deref H i).score))).map
            (fun p => (p.1, dw.getD FusionService.default_dense_weight * p.2))) := by
        refine List.pairwise_map.mpr ?_
        exact hzip.imp (fun h => mul_le_mul_of_nonneg_left h hw)
      have hpw : List.Pairwise
          (fun a b => (deref (writeScores H ((dense.zip (minMaxNormalize
              (dense.map fun i => (deref H i).score))).map
              (fun p => (p.1, dw.getD FusionService.default_dense_weight * p.2)))) b).score
            ≤ (deref (writeScores H ((dense.zip (minMaxNormalize
              (dense.map fun i => (deref H i).score))).map
              (fun p => (p.1, dw.getD FusionService.default_dense_weight * p.2)))) a).score)
          (((dense.zip (minMaxNormalize (dense.map fun i => (deref H i).score))).map
            (fun p => (p.1, dw.getD FusionService.default_dense_weight * p.2))).map
            Prod.fst) :=
        List.pairwise_map.mpr
          (hpairsp.imp_of_mem (fun {a b} ha hb hab =>
            le_of_le_of_eq (le_of_eq_of_le (hkey b hb) hab) (hkey a ha).symm))
      rw [hpairsfst] at hpw
      exact hpw
    · intro pos hpos
      rw [hfd, hcomp]
      have hposn : pos < (minMaxNormalize
          (dense.map fun i => (deref H i).score)).length := lt_of_lt_of_le hpos hlen
      have hzlen : pos < (dense.zip (minMaxNormalize
          (dense.map fun i => (deref H i).score))).length := by
        rw [List.length_zip]
        exact lt_min hpos hposn
      have hmaplen : pos < ((dense.zip (minMaxNormalize
          (dense.map fun i => (deref H i).score))).map
          (fun p => (p.1, dw.getD FusionService.default_dense_weight
            * p.2))).length := by
        rw [List.length_map]; exact hzlen
      have hmem : (dense[pos],
          dw.getD FusionService.default_dense_weight
            * (minMaxNormalize (dense.map fun i => (deref H i).score))[pos])
          ∈ (dense.zip (minMaxNormalize (dense.map fun i => (deref H i).score))).map
            (fun p => (p.1, dw.getD FusionService.default_dense_weight * p.2)) := by
        have hg : ((dense.zip (minMaxNormalize (dense.map fun i => (deref H i).score))).map
            (fun p => (p.1, dw.getD FusionService.default_dense_weight * p.2)))[pos]
            = (dense[pos], dw.getD FusionService.default_dense_weight
                * (minMaxNormalize (dense.map fun i => (deref H i).score))[pos]) := by
          rw [List.getElem_map, List.getElem_zip]
        rw [← hg]
        exact List.getElem_mem _
      have := hkey _ hmem
      rw [show dense.getD pos 0 = dense[pos] from List.getD_eq_getElem dense 0 hpos,
        show (minMaxNormalize (dense.map fun i => (deref H i).score)).getD pos 0
          = (minMaxNormalize (dense.map fun i => (deref H i).score))[pos]
          from List.getD_eq_getElem _ 0 hposn]
      exact this
    · intro j hj
      rw [hfd, hcomp]
      refine writeScores_deref_notMem H _ j ?_
      rw [hpairsfst]
      exact hj
  · intro H dense w nm fm cid
    unfold HybridSearchService.search_collection_parallel
    simp
  · intro H refs cid j
    exact ⟨(tagResults_deref_score H refs cid j).1,
      (tagResults_deref_score H refs cid j).2.1⟩

/-- Witness for C3 (amended): a concrete two-result dense list through
`fuse_dense_sparse` with empty sparse (order preserved, scores rescaled)
and through the orchestrator's bypass. -/
theorem C3_fuse_dense_sparse_amended_witness :
    (FusionService.fuse_dense_sparse
      [fxRes "a" (9/10) "d" 1, fxRes "b" (7/10) "d" 2] [0, 1] [] Option.none
      .WEIGHTED .MIN_MAX).2 = [0, 1] ∧
    HybridSearchService.search_collection_parallel
      [fxRes "a" (9/10) "d" 1, fxRes "b" (7/10) "d" 2] [0, 1] [] (3/5)
      "min_max" "weighted" "c"
      = (tagResults [fxRes "a" (9/10) "d" 1, fxRes "b" (7/10) "d" 2] [0, 1] "c",
         [0, 1]) := by
  constructor
  · refine (C3_fuse_dense_sparse_amended.1
      [fxRes "a" (9/10) "d" 1, fxRes "b" (7/10) "d" 2] [0, 1] Option.none
      (by decide) ?_ (by decide) ?_ ?_).1
    · norm_num +decide [refHash, deref, FusionService.create_result_hash, fxRes, pyStr]
    · norm_num [deref, fxRes, List.pairwise_cons]
    · norm_num [FusionService.default_dense_weight]
  · exact C3_fuse_dense_sparse_amended.2.1
      [fxRes "a" (9/10) "d" 1, fxRes "b" (7/10) "d" 2] [0, 1] (3/5)
      "min_max" "weighted" "c"

/-! ## Claim C6 — reciprocal rank fusion -/

theorem rrfOccSum_eq {α : Type} (hash : α → String) (k : ℚ) (g : List α)
    (h : String) :
    rrfOccSum k (g.map hash) h
      = ((g.enum.filter (fun p => decide (hash p.2 = h))).map
          (fun p => 1 / ((p.1 : ℚ) + 1 + k))).sum := by
  unfold rrfOccSum
  rw [List.enum_map, List.filter_map, List.map_map]
  congr 1

theorem rrfFold_lookupD {α : Type} (hash : α → String) (k : ℚ)
    (groups : List (List α)) (h : String) :
    lookupD (rrfFold hash k groups).1 h 0
      = (groups.map (fun g => rrfOccSum k (g.map hash) h)).sum := by
  suffices haux : ∀ (gs : List (List α))
      (acc : List (String × ℚ) × List (String × α)),
      lookupD (gs.foldl (rrfStep hash k) acc).1 h 0
        = lookupD acc.1 h 0 + (gs.map (fun g => rrfOccSum k (g.map hash) h)).sum by
    have := haux groups ([], [])
    simpa [rrfFold, lookupD] using this
  intro gs
  induction gs with
  | nil => intro acc; simp
  | cons g gs ih =>
      intro acc
      simp only [List.foldl_cons, List.map_cons, List.sum_cons]
      rw [ih]
      have hstep := foldl_dictStep_lookup (fun p : ℕ × α => hash p.2)
        (fun p => 1 / ((p.1 : ℚ) + 1 + k)) Prod.snd g.enum acc h
      rw [show rrfStep hash k acc g = g.enum.foldl
          (fun acc p => dictStep (hash p.2) (1 / ((p.1 : ℚ) + 1 + k)) p.2 acc) acc
        from rfl]
      rw [hstep, ← rrfOccSum_eq]
      ring

theorem occSumFrom_notMem (k : ℚ) (h : String) :
    ∀ (hs : List String) (n : ℕ), h ∉ hs →
    (((List.enumFrom n hs).filter (fun p => decide (p.2 = h))).map
      (fun p => 1 / ((p.1 : ℚ) + 1 + k))).sum = 0 := by
  intro hs
  induction hs with
  | nil => intro n _; rfl
  | cons a tl ih =>
      intro n hmem
      simp only [List.mem_cons] at hmem
      push_neg at hmem
      have hne : ¬ a = h := fun hh => hmem.1 hh.symm
      simp only [List.enumFrom_cons, List.filter_cons, decide_eq_true_eq, hne,
        if_false]
      exact ih (n + 1) hmem.2

theorem occSumFrom_single_head (k : ℚ) (h : String) (tl : List String) (n : ℕ)
    (hmem : h ∉ tl) :
    (((List.enumFrom n (h :: tl)).filter (fun p => decide (p.2 = h))).map
      (fun p => 1 / ((p.1 : ℚ) + 1 + k))).sum = 1 / ((n : ℚ) + 1 + k) := by
  simp only [List.enumFrom_cons, List.filter_cons, decide_eq_true_eq, if_true,
    List.map_cons, List.sum_cons]
  rw [occSumFrom_notMem k h tl (n + 1) hmem]
  ring

theorem occSumFrom_nodup_mem (k : ℚ) (h : String) :
    ∀ (hs : List String) (n : ℕ), hs.Nodup → h ∈ hs →
    (((List.enumFrom n hs).filter (fun p => decide (p.2 = h))).map
      (fun p => 1 / ((p.1 : ℚ) + 1 + k))).sum
      = 1 / ((n : ℚ) + (hs.indexOf h : ℚ) + 1 + k) := by
  intro hs
  induction hs with
  | nil => intro n _ hmem; simp at hmem
  | cons a tl ih =>
      intro n hnd hmem
      rcases List.nodup_cons.mp hnd with ⟨hna, hndtl⟩
      by_cases hah : a = h
      · subst hah
        rw [occSumFrom_single_head k a tl n hna]
        simp [List.indexOf_cons_self]
      · have hmem' : h ∈ tl := by
          rcases List.mem_cons.mp hmem with hh | hh
          · exact absurd hh.symm hah
          · exact hh
        have hne : ¬ a = h := hah
        simp only [List.enumFrom_cons, List.filter_cons, decide_eq_true_eq, hne,
          if_false]
        rw [ih (n + 1) hndtl hmem']
        have hidx : ((a :: tl).indexOf h : ℚ) = (tl.indexOf h : ℚ) + 1 := by
          rw [List.indexOf_cons_ne _ hne]
          push_cast
          ring
        rw [hidx]
        congr 1
        push_cast
        ring

theorem rrfOccSum_notMem (k : ℚ) (hs : List String) (h : String)
    (hmem : h ∉ hs) : rrfOccSum k hs h = 0 := by
  unfold rrfOccSum
  exact occSumFrom_notMem k h hs 0 hmem

theorem rrfOccSum_nodup (k : ℚ) (hs : List String) (h : String)
    (hnd : hs.Nodup) : rrfOccSum k hs h = rrfRankScore k hs h := by
  unfold rrfRankScore
  by_cases hmem : h ∈ hs
  · rw [if_pos hmem]
    unfold rrfOccSum
    have := occSumFrom_nodup_mem k h hs 0 hnd hmem
    rw [show List.enumFrom 0 hs = hs.enum from rfl] at this
    rw [this]
    norm_num
  · rw [if_neg hmem]
    exact rrfOccSum_notMem k hs h hmem

theorem rrfFold_claimScore {α : Type} (hash : α → String) (k : ℚ)
    (groups : List (List α)) (h : String)
    (hnd : ∀ g ∈ groups, (g.map hash).Nodup) :
    lookupD (rrfFold hash k groups).1 h 0
      = rrfClaimScore k (groups.map (fun g => g.map hash)) h := by
  rw [rrfFold_lookupD]
  unfold rrfClaimScore
  rw [List.map_map]
  congr 1
  refine List.map_congr_left ?_
  intro g hg
  exact rrfOccSum_nodup k (g.map hash) h (hnd g hg)

theorem occSumFrom_nonneg (k : ℚ) (hk : 0 ≤ k) (h : String) (hs : List String)
    (n : ℕ) :
    0 ≤ (((List.enumFrom n hs).filter (fun p => decide (p.2 = h))).map
      (fun p => 1 / ((p.1 : ℚ) + 1 + k))).sum := by
  refine List.sum_nonneg ?_
  intro x hx
  rcases List.mem_map.mp hx with ⟨p, hp, rfl⟩
  have hc : (0 : ℚ) ≤ (p.1 : ℚ) := Nat.cast_nonneg _
  have hd : (0 : ℚ) ≤ (p.1 : ℚ) + 1 + k := by linarith
  exact div_nonneg (by norm_num) hd

theorem rrfOccSum_head_le (k : ℚ) (hk : 0 ≤ k) (h : String) (hs : List String)
    (hh : hs.head? = some h) : 1 / (1 + k) ≤ rrfOccSum k hs h := by
  cases hs with
  | nil => simp at hh
  | cons a tl =>
      have ha : a = h := by simpa using hh
      subst ha
      unfold rrfOccSum
      rw [show (a :: tl).enum = List.enumFrom 0 (a :: tl) from rfl]
      simp only [List.enumFrom_cons, List.filter_cons, decide_eq_true_eq,
        if_true, List.map_cons, List.sum_cons]
      have := occSumFrom_nonneg k hk a tl 1
      have h0 : ((0 : ℕ) : ℚ) + 1 + k = 1 + k := by norm_num
      rw [h0]
      linarith

theorem rrfOccSum_single (k : ℚ) (h : String) (hs : List String)
    (hh : hs.head? = some h) (hc : hs.count h = 1) :
    rrfOccSum k hs h = 1 / (1 + k) := by
  cases hs with
  | nil => simp at hh
  | cons a tl =>
      have ha : a = h := by simpa using hh
      subst ha
      have htl : a ∉ tl := by
        have h1 : (a :: tl).count a = tl.count a + 1 := List.count_cons_self a tl
        have h2 : tl.count a = 0 := by omega
        exact List.count_eq_zero.mp h2
      unfold rrfOccSum
      rw [show (a :: tl).enum = List.enumFrom 0 (a :: tl) from rfl]
      rw [occSumFrom_single_head k a tl 0 htl]
      norm_num

theorem length_mul_le_sum (l : List ℚ) (c : ℚ) (hc : ∀ x ∈ l, c ≤ x) :
    (l.length : ℚ) * c ≤ l.sum := by
  induction l with
  | nil => simp
  | cons a tl ih =>
      simp only [List.length_cons, List.sum_cons]
      push_cast
      have h1 := hc a (List.mem_cons_self _ _)
      have h2 := ih (fun x hx => hc x (List.mem_cons_of_mem _ hx))
      nlinarith

/-- C6: both reciprocal-rank-fusion implementations assign each returned
candidate the score `Σ 1/(rank_i + k)` over exactly the lists in which it
appears, with `rank_i` the 1-based position in that list (formalized by
`rrfClaimScore`, assuming the per-list hashes are duplicate-free so that
"the candidate's position" is well defined):
(1) `ScoreFusionService.reciprocal_rank_fusion` (pure, returning pairs) and
(2) `FusionService.reciprocal_rank_fusion` (heap-mutating); and
(3) at the default `k = 60`, over two or more input lists, a candidate at
rank 1 of every list scores strictly higher than a candidate at rank 1 of
only one list (of an equally long family) and absent from the others. -/
theorem C6_rrf_score :
    (∀ (groups : List (List SearchResult)) (k : ℚ),
      (∀ g ∈ groups, (g.map ResultDeduplicator.create_chunk_hash).Nodup) →
      ∀ p ∈ ScoreFusionService.reciprocal_rank_fusion groups k,
        p.2 = rrfClaimScore k
          (groups.map (fun g => g.map ResultDeduplicator.create_chunk_hash))
          (ResultDeduplicator.create_chunk_hash p.1)) ∧
    (∀ (H : List SearchResult) (groups : List (List ℕ)) (k : ℚ),
      (∀ g ∈ groups, (g.map (refHash H)).Nodup) →
      (∀ g ∈ groups, ∀ i ∈ g, i < H.length) →
      ∀ i ∈ (FusionService.reciprocal_rank_fusion H groups k).2,
        (deref (FusionService.reciprocal_rank_fusion H groups k).1 i).score
          = rrfClaimScore k (groups.map (fun g => g.map (refHash H)))
              (refHash H i)) ∧
    (∀ (groupsA groupsB : List (List SearchResult)) (hA hB : String),
      groupsB.length = groupsA.length → 2 ≤ groupsA.length →
      (∀ g ∈ groupsA,
        (g.map ResultDeduplicator.create_chunk_hash).head? = some hA) →
      (groupsB.map (fun g =>
        (g.map ResultDeduplicator.create_chunk_hash).count hB)).sum = 1 →
      (∃ g ∈ groupsB,
        (g.map ResultDeduplicator.create_chunk_hash).head? = some hB) →
      lookupD (rrfFold ResultDeduplicator.create_chunk_hash 60 groupsB).1 hB 0
        < lookupD
            (rrfFold ResultDeduplicator.create_chunk_hash 60 groupsA).1 hA 0) := by
  refine ⟨?_, ?_, ?_⟩
  · intro groups k hnd p hp
    have hform : ScoreFusionService.reciprocal_rank_fusion groups k
        = sortDescBy (fun p : SearchResult × ℚ => p.2)
            ((rrfFold ResultDeduplicator.create_chunk_hash k groups).1.map
              (fun q =>
                (lookupD (rrfFold ResultDeduplicator.create_chunk_hash k
                    groups).2 q.1 default, q.2))) := rfl
    rw [hform] at hp
    have hp' := (mem_sortDescBy _ p _).mp hp
    rcases List.mem_map.mp hp' with ⟨⟨h, s⟩, hhs, hpe⟩
    subst hpe
    have hkeq : keysOf (rrfFold ResultDeduplicator.create_chunk_hash k
          groups).1
        = keysOf (rrfFold ResultDeduplicator.create_chunk_hash k groups).2 :=
      rrfFold_aux_keysEq _ _ _ ([], []) rfl
    have hnd1 : (keysOf (rrfFold ResultDeduplicator.create_chunk_hash k
          groups).1).Nodup :=
      rrfFold_aux_nodup _ _ _ ([], []) (by simp [keysOf])
    have hob : ∀ q ∈ (rrfFold ResultDeduplicator.create_chunk_hash k
          groups).2,
        ResultDeduplicator.create_chunk_hash q.2 = q.1 :=
      rrfFold_aux_ob_forall ResultDeduplicator.create_chunk_hash k groups
        (fun q => ResultDeduplicator.create_chunk_hash q.2 = q.1)
        (fun g hg x hx => rfl) ([], []) (by simp)
    have hk1 : h ∈ keysOf (rrfFold ResultDeduplicator.create_chunk_hash k
          groups).1 :=
      List.mem_map_of_mem Prod.fst hhs
    have hmem2 := mem_of_lookupD
      (rrfFold ResultDeduplicator.create_chunk_hash k groups).2 h default
      (hkeq ▸ hk1)
    have hhash : ResultDeduplicator.create_chunk_hash
        (lookupD (rrfFold ResultDeduplicator.create_chunk_hash k groups).2 h
          default) = h := hob _ hmem2
    have hs' : lookupD (rrfFold ResultDeduplicator.create_chunk_hash k
        groups).1 h 0 = s :=
      lookupD_mem_of_nodup _ _ _ _ hnd1 hhs
    show s = rrfClaimScore k
      (groups.map (fun g => g.map ResultDeduplicator.create_chunk_hash))
      (ResultDeduplicator.create_chunk_hash
        (lookupD (rrfFold ResultDeduplicator.create_chunk_hash k groups).2 h
          default))
    rw [hhash, ← hs']
    exact rrfFold_claimScore _ k groups h hnd
  · intro H groups k hnd hbnd i hi
    by_cases hg : groups = [] ∨ groups.all (· = [])
    · rw [show FusionService.reciprocal_rank_fusion H groups k = (H, []) from by
        unfold FusionService.reciprocal_rank_fusion; rw [if_pos hg]] at hi
      simp at hi
    · have hform : FusionService.reciprocal_rank_fusion H groups k
          = finalizeFusion H (rrfFold (refHash H) k groups) := by
        unfold FusionService.reciprocal_rank_fusion; rw [if_neg hg]
      rw [hform] at hi ⊢
      have hi2 : i ∈ (finalizePairs (rrfFold (refHash H) k groups).1
          (rrfFold (refHash H) k groups).2).map (·.1) :=
        (mem_sortDescBy _ i _).mp hi
      unfold finalizePairs at hi2
      rw [List.map_map] at hi2
      rcases List.mem_map.mp hi2 with ⟨⟨h, s⟩, hhs, hieq⟩
      have hieq' : lookupD (rrfFold (refHash H) k groups).2 h 0 = i := hieq
      have hkeq : keysOf (rrfFold (refHash H) k groups).1
          = keysOf (rrfFold (refHash H) k groups).2 :=
        rrfFold_aux_keysEq _ _ _ ([], []) rfl
      have hnd1 : (keysOf (rrfFold (refHash H) k groups).1).Nodup :=
        rrfFold_aux_nodup _ _ _ ([], []) (by simp [keysOf])
      have hob : ∀ q ∈ (rrfFold (refHash H) k groups).2,
          refHash H q.2 = q.1 :=
        rrfFold_aux_ob_forall (refHash H) k groups
          (fun q => refHash H q.2 = q.1)
          (fun g hg' x hx => rfl) ([], []) (by simp)
      have hbound : ∀ q ∈ (rrfFold (refHash H) k groups).2,
          q.2 < H.length :=
        rrfFold_aux_ob_forall _ _ _ (fun q => q.2 < H.length)
          (fun g hg' x hx => hbnd g hg' x hx) ([], []) (by simp)
      have hscore := finalizeFusion_score H (rrfFold (refHash H) k groups)
        hnd1 hkeq hob hbound h s hhs
      rw [hieq'] at hscore
      have hk1 : h ∈ keysOf (rrfFold (refHash H) k groups).1 :=
        List.mem_map_of_mem Prod.fst hhs
      have hmem2 := mem_of_lookupD (rrfFold (refHash H) k groups).2 h 0
        (hkeq ▸ hk1)
      have hhash : refHash H i = h := by
        rw [← hieq']; exact hob _ hmem2
      rw [hscore, hhash]
      have hs' : lookupD (rrfFold (refHash H) k groups).1 h 0 = s :=
        lookupD_mem_of_nodup _ _ _ _ hnd1 hhs
      rw [← hs']
      exact rrfFold_claimScore _ k groups h hnd
  · intro gA gB hA hB hlen h2 hheadA hcnt hex
    obtain ⟨g₀, hg₀, hheadB⟩ := hex
    have hAeq := rrfFold_lookupD ResultDeduplicator.create_chunk_hash 60 gA hA
    have heach : ∀ x ∈ gA.map
        (fun g => rrfOccSum 60 (g.map ResultDeduplicator.create_chunk_hash)
          hA), 1 / 61 ≤ x := by
      intro x hx
      rcases List.mem_map.mp hx with ⟨g, hg, rfl⟩
      have h1 := rrfOccSum_head_le 60 (by norm_num) hA
        (g.map ResultDeduplicator.create_chunk_hash) (hheadA g hg)
      have h161 : (1 : ℚ) / (1 + 60) = 1 / 61 := by norm_num
      rw [h161] at h1
      exact h1
    have hlb := length_mul_le_sum _ (1 / 61) heach
    rw [List.length_map] at hlb
    have hA2 : (2 : ℚ) * (1 / 61) ≤ (gA.length : ℚ) * (1 / 61) := by
      have hcast : (2 : ℚ) ≤ (gA.length : ℚ) := by exact_mod_cast h2
      nlinarith
    obtain ⟨l₁, l₂, hdec⟩ := List.append_of_mem hg₀
    subst hdec
    rw [List.map_append, List.sum_append, List.map_cons, List.sum_cons] at hcnt
    have hmemB : hB ∈ g₀.map ResultDeduplicator.create_chunk_hash := by
      cases hml : g₀.map ResultDeduplicator.create_chunk_hash with
      | nil => rw [hml] at hheadB; simp at hheadB
      | cons a tl =>
          rw [hml] at hheadB
          simp only [List.head?_cons, Option.some.injEq] at hheadB
          rw [← hheadB]
          exact List.mem_cons_self a tl
    have hcne : (g₀.map ResultDeduplicator.create_chunk_hash).count hB ≠ 0 :=
      fun h0 => (List.count_eq_zero.mp h0) hmemB
    have hS1 : (l₁.map (fun g =>
        (g.map ResultDeduplicator.create_chunk_hash).count hB)).sum = 0 := by
      omega
    have hS2 : (l₂.map (fun g =>
        (g.map ResultDeduplicator.create_chunk_hash).count hB)).sum = 0 := by
      omega
    have hc₀ : (g₀.map ResultDeduplicator.create_chunk_hash).count hB = 1 := by
      omega
    have hz : ∀ (lx : List (List SearchResult)),
        (lx.map (fun g =>
          (g.map ResultDeduplicator.create_chunk_hash).count hB)).sum = 0 →
        (lx.map (fun g =>
          rrfOccSum 60 (g.map ResultDeduplicator.create_chunk_hash)
            hB)).sum = 0 := by
      intro lx
      induction lx with
      | nil => intro _; simp
      | cons a tl ih =>
          intro hsum
          simp only [List.map_cons, List.sum_cons] at hsum ⊢
          have ha : (a.map ResultDeduplicator.create_chunk_hash).count hB
              = 0 := by omega
          have htl : (tl.map (fun g =>
              (g.map ResultDeduplicator.create_chunk_hash).count hB)).sum
              = 0 := by omega
          rw [ih htl, rrfOccSum_notMem 60 _ hB (List.count_eq_zero.mp ha)]
          norm_num
    have hBeq := rrfFold_lookupD ResultDeduplicator.create_chunk_hash 60
      (l₁ ++ g₀ :: l₂) hB
    rw [List.map_append, List.sum_append, List.map_cons, List.sum_cons] at hBeq
    have hg₀occ : rrfOccSum 60
        (g₀.map ResultDeduplicator.create_chunk_hash) hB = 1 / 61 := by
      rw [rrfOccSum_single 60 hB _ hheadB hc₀]
      norm_num
    rw [hz l₁ hS1, hz l₂ hS2, hg₀occ] at hBeq
    linarith [hAeq, hBeq, hlb, hA2]

theorem C6_rrf_score_witness :
    (∀ p ∈ ScoreFusionService.reciprocal_rank_fusion
        [[fxRes "a" 1 "d" 1, fxRes "b" 1 "d" 2], [fxRes "a" 1 "d" 1]] 60,
      p.2 = rrfClaimScore 60
        ([[fxRes "a" 1 "d" 1, fxRes "b" 1 "d" 2], [fxRes "a" 1 "d" 1]].map
          (fun g => g.map ResultDeduplicator.create_chunk_hash))
        (ResultDeduplicator.create_chunk_hash p.1)) ∧
    (∀ i ∈ (FusionService.reciprocal_rank_fusion
        [fxRes "a" 1 "d" 1, fxRes "b" 1 "d" 2] [[0, 1], [0]] 60).2,
      (deref (FusionService.reciprocal_rank_fusion
          [fxRes "a" 1 "d" 1, fxRes "b" 1 "d" 2] [[0, 1], [0]] 60).1 i).score
        = rrfClaimScore 60
            ([[0, 1], [0]].map (fun g => g.map
              (refHash [fxRes "a" 1 "d" 1, fxRes "b" 1 "d" 2])))
            (refHash [fxRes "a" 1 "d" 1, fxRes "b" 1 "d" 2] i)) ∧
    lookupD (rrfFold ResultDeduplicator.create_chunk_hash 60
        [[fxRes "b" 1 "d" 2], [fxRes "a" 1 "d" 1]]).1 "d_2" 0
      < lookupD (rrfFold ResultDeduplicator.create_chunk_hash 60
        [[fxRes "a" 1 "d" 1], [fxRes "a" 1 "d" 1]]).1 "d_1" 0 :=
  ⟨C6_rrf_score.1 _ 60 (by decide),
   C6_rrf_score.2.1 _ _ 60 (by decide) (by decide),
   C6_rrf_score.2.2 [[fxRes "a" 1 "d" 1], [fxRes "a" 1 "d" 1]]
     [[fxRes "b" 1 "d" 2], [fxRes "a" 1 "d" 1]] "d_1" "d_2"
     (by decide) (by decide) (by decide) (by decide)
     ⟨[fxRes "b" 1 "d" 2], by decide, by decide⟩⟩

/-! ## Claim C8 — reranker batching -/

theorem batchProcessAux_length (bs : ℕ) (hbs : 0 < bs) (t : List Bool)
    (o : List CallOutcome) :
    ∀ (fuel : ℕ) (cs : List SearchResult) (bi j : ℕ), cs.length ≤ fuel →
      (batchProcessAux bs t o fuel bi j cs).length = cs.length := by
  intro fuel
  induction fuel with
  | zero =>
      intro cs bi j hf
      cases cs with
      | nil => rfl
      | cons c cs' => simp at hf
  | succ fuel ih =>
      intro cs bi j hf
      cases cs with
      | nil => rfl
      | cons c cs' =>
          simp only [batchProcessAux]
          rw [List.length_append]
          rw [ih ((c :: cs').drop bs) (bi + 1) (j + bs)
            (by simp only [List.length_drop, List.length_cons] at hf ⊢; omega)]
          by_cases ht : t.getD bi false = true
          · rw [if_pos ht]
            simp only [List.length_map, List.length_take, List.length_drop,
              List.length_cons]
            omega
          · rw [if_neg ht]
            simp only [List.length_map, List.enum_length, List.length_take,
              List.length_drop, List.length_cons]
            omega

theorem batchProcessAux_get? (bs : ℕ) (hbs : 0 < bs) (t : List Bool)
    (o : List CallOutcome) :
    ∀ (fuel : ℕ) (cs : List SearchResult) (bi j idx : ℕ),
      cs.length ≤ fuel → idx < cs.length →
      (batchProcessAux bs t o fuel bi j cs).get? idx
        = (cs.get? idx).map (fun c =>
            (c, if t.getD (bi + idx / bs) false then 50
                else scoreOfOutcome (o.getD (j + idx) CallOutcome.exc))) := by
  intro fuel
  induction fuel with
  | zero =>
      intro cs bi j idx hf hidx
      cases cs with
      | nil => simp at hidx
      | cons c cs' => simp at hf
  | succ fuel ih =>
      intro cs bi j idx hf hidx
      cases cs with
      | nil => simp at hidx
      | cons c cs' =>
          simp only [batchProcessAux]
          by_cases hlt : idx < bs
          · have hlen1 : idx < (List.take bs (c :: cs')).length := by
              simp only [List.length_take]
              exact lt_min hlt hidx
            have hdiv : idx / bs = 0 := Nat.div_eq_of_lt hlt
            by_cases ht : t.getD bi false = true
            · rw [if_pos ht]
              rw [List.get?_append
                (by simp only [List.length_map]; exact hlen1)]
              rw [List.get?_map, List.get?_take hlt, hdiv]
              simp only [Nat.add_zero, if_pos ht]
            · rw [if_neg ht]
              rw [List.get?_append
                (by simp only [List.length_map, List.enum_length]
                    exact hlen1)]
              rw [List.get?_map, List.enum_get?, List.get?_take hlt, hdiv]
              simp only [Nat.add_zero, if_neg ht, Option.map_map]
              rfl
          · push_neg at hlt
            have hf' : cs'.length + 1 ≤ fuel + 1 := by simpa using hf
            have hidx' : idx < cs'.length + 1 := by simpa using hidx
            have hlenb : (List.take bs (c :: cs')).length = bs := by
              simp only [List.length_take, List.length_cons]
              omega
            have hfr : ((c :: cs').drop bs).length ≤ fuel := by
              simp only [List.length_drop, List.length_cons]
              omega
            have hir : idx - bs < ((c :: cs').drop bs).length := by
              simp only [List.length_drop, List.length_cons]
              omega
            have hdiv : idx / bs = (idx - bs) / bs + 1 := by
              have hh := Nat.add_div_right (idx - bs) hbs
              rw [Nat.sub_add_cancel hlt] at hh
              exact hh
            have h1 : bs + (idx - bs) = idx := by omega
            have h2 : bi + 1 + (idx - bs) / bs = bi + idx / bs := by
              rw [hdiv]; ring
            have h3 : j + bs + (idx - bs) = j + idx := by omega
            by_cases ht : t.getD bi false = true
            · rw [if_pos ht]
              rw [List.get?_append_right
                (by simp only [List.length_map, hlenb]; exact hlt)]
              simp only [List.length_map, hlenb]
              rw [ih ((c :: cs').drop bs) (bi + 1) (j + bs) (idx - bs) hfr hir]
              rw [List.get?_drop]
              simp only [h1, h2, h3]
            · rw [if_neg ht]
              rw [List.get?_append_right
                (by simp only [List.length_map, List.enum_length, hlenb]
                    exact hlt)]
              simp only [List.length_map, List.enum_length, hlenb]
              rw [ih ((c :: cs').drop bs) (bi + 1) (j + bs) (idx - bs) hfr hir]
              rw [List.get?_drop]
              simp only [h1, h2, h3]

theorem batch_process_get? (t : List Bool) (o : List CallOutcome)
    (cs : List SearchResult) (idx : ℕ) :
    (LLMRerankerService.batch_process_candidates t o cs).get? idx
      = (cs.get? idx).map (fun c =>
          (c, if t.getD (idx / LLMRerankerService.batch_size) false then 50
              else scoreOfOutcome (o.getD idx CallOutcome.exc))) := by
  unfold LLMRerankerService.batch_process_candidates
  by_cases hidx : idx < cs.length
  · rw [batchProcessAux_get? LLMRerankerService.batch_size (by norm_num
      [LLMRerankerService.batch_size]) t o cs.length cs 0 0 idx le_rfl hidx]
    simp only [Nat.zero_add]
  · push_neg at hidx
    rw [List.get?_eq_none.mpr]
    · rw [List.get?_eq_none.mpr hidx]
      rfl
    · rw [batchProcessAux_length LLMRerankerService.batch_size (by norm_num
        [LLMRerankerService.batch_size]) t o cs.length cs 0 0 le_rfl]
      exact hidx

theorem batch_process_length (t : List Bool) (o : List CallOutcome)
    (cs : List SearchResult) :
    (LLMRerankerService.batch_process_candidates t o cs).length = cs.length :=
  batchProcessAux_length LLMRerankerService.batch_size
    (by norm_num [LLMRerankerService.batch_size]) t o cs.length cs 0 0 le_rfl

/-- C8: reranker batching and fallback.  A candidate at global index `idx`
belongs to batch `idx / batch_size`; if that batch's overall timeout fires
it scores 50, and a candidate whose individual LLM call fails
(`CallOutcome.exc`, which is also what every candidate of a batch whose
calls all fail carries) scores `scoreOfOutcome .exc = 50`.  No candidate
is dropped (`_batch_process_candidates` maps the input list one-to-one,
in order).  `rerank_results` then sorts all scored candidates descending
(stably), truncates to `limit` (output length `min limit |candidates|`),
and stamps entry `idx` with `reranker_score` and 1-based
`final_rank = idx + 1`. -/
theorem C8_rerank_batching (t : List Bool) (o : List CallOutcome)
    (cs : List SearchResult) (limit : ℕ) :
    scoreOfOutcome CallOutcome.exc = 50 ∧
    (LLMRerankerService.batch_process_candidates t o cs).map Prod.fst = cs ∧
    (∀ idx, (LLMRerankerService.batch_process_candidates t o cs).get? idx
        = (cs.get? idx).map (fun c =>
            (c, if t.getD (idx / LLMRerankerService.batch_size) false then 50
                else scoreOfOutcome (o.getD idx CallOutcome.exc)))) ∧
    (LLMRerankerService.rerank_results t o cs limit).length
        = min limit cs.length ∧
    (∀ idx, (LLMRerankerService.rerank_results t o cs limit).get? idx
        = (((sortDescBy (fun p => p.2)
              (LLMRerankerService.batch_process_candidates t o cs)).take
                limit).get? idx).map
            (fun q => stampRerank q.1 q.2 (idx + 1))) ∧
    List.Pairwise (fun a b => b.2 ≤ a.2)
      ((sortDescBy (fun p => p.2)
        (LLMRerankerService.batch_process_candidates t o cs)).take limit) ∧
    (∀ r s rank, (stampRerank r s rank).payload.reranker_score
          = some (PyVal.int s)
        ∧ (stampRerank r s rank).payload.final_rank
          = some (PyVal.int rank)) := by
  refine ⟨rfl, ?_, batch_process_get? t o cs, ?_, ?_, ?_, fun r s rank => ⟨rfl, rfl⟩⟩
  · refine List.ext_get? ?_
    intro n
    rw [List.get?_map, batch_process_get? t o cs n]
    cases hc : cs.get? n with
    | none => rfl
    | some c => rfl
  · unfold LLMRerankerService.rerank_results
    by_cases hcs : cs = []
    · rw [if_pos hcs]
      subst hcs
      show (0 : ℕ) = min limit ([] : List SearchResult).length
      simp
    · rw [if_neg hcs]
      simp only [List.length_map, List.enum_length, List.length_take,
        length_sortDescBy, batch_process_length]
  · intro idx
    unfold LLMRerankerService.rerank_results
    by_cases hcs : cs = []
    · rw [if_pos hcs]
      subst hcs
      have hbp : LLMRerankerService.batch_process_candidates t o
          ([] : List SearchResult) = [] := rfl
      rw [hbp]
      show (none : Option SearchResult)
        = (((sortDescBy (fun p : SearchResult × ℕ => p.2) []).take
            limit).get? idx).map (fun q => stampRerank q.1 q.2 (idx + 1))
      simp [sortDescBy]
    · rw [if_neg hcs]
      rw [List.get?_map, List.enum_get?, Option.map_map]
      cases hq : ((sortDescBy (fun p : SearchResult × ℕ => p.2)
          (LLMRerankerService.batch_process_candidates t o cs)).take
            limit).get? idx with
      | none => rfl
      | some q => rfl
  · exact List.Pairwise.sublist (List.take_sublist limit _)
      (sortDescBy_sorted (fun p : SearchResult × ℕ => p.2) _)

/-! ## Claim C1 — return forms of `retrieve` -/

theorem marker_infix_of_append (a b t : String) :
    t.data <:+: (a ++ (t ++ b)).data :=
  ⟨a.data, b.data, by simp [String.data_append]⟩

theorem formatChunk_marker (i : ℕ) (r : SearchResult) :
    citationMarker.data <:+: (formatChunk i r).data := by
  unfold formatChunk
  dsimp only
  split_ifs with hft
  · exact marker_infix_of_append _ _ _
  · exact marker_infix_of_append _ _ _

theorem joinSep_cons_head (sep x : String) (xs : List String) :
    ∃ rest, joinSep sep (x :: xs) = x ++ rest := by
  cases xs with
  | nil => exact ⟨"", (String.append_empty x).symm⟩
  | cons y ys =>
      refine ⟨sep ++ joinSep sep (y :: ys), ?_⟩
      show x ++ sep ++ joinSep sep (y :: ys) = x ++ (sep ++ joinSep sep (y :: ys))
      rw [String.append_assoc]

theorem marker_infix_join (x rest tl : String)
    (hx : citationMarker.data <:+: x.data) :
    citationMarker.data <:+: ((x ++ rest) ++ tl).data := by
  refine hx.trans ?_
  have h : ((x ++ rest) ++ tl).data = x.data ++ (rest.data ++ tl.data) := by
    simp [String.data_append]
  rw [h]
  exact (List.prefix_append _ _).isInfix

theorem format_marker (r : SearchResult) (rs : List SearchResult)
    (meta : Option RerankMeta) :
    citationMarker.data
      <:+: (mcpServer.format_results_response (r :: rs) meta).data := by
  unfold mcpServer.format_results_response
  rw [if_neg (by simp)]
  rw [List.enum_cons, List.map_cons]
  obtain ⟨rest, hjoin⟩ := joinSep_cons_head "\n\n" (formatChunk 0 r)
    ((List.enumFrom 1 rs).map (fun p => formatChunk p.1 p.2))
  rw [hjoin]
  exact marker_infix_join _ _ _ (formatChunk_marker 0 r)

/-- C1 (amended): `retrieve` always returns a string of one of *four*
forms: formatted passages of a non-empty result list, the fixed
no-results string, an `"Error during retrieval: "`-prefixed error
string — or, missing from the claim, the input-validation message
prefixed `"Invalid collection_id type: "` for a malformed
`collection_id` argument. -/
theorem C1_retrieve_amended (arg : CollectionIdArg)
    (expansionEnabled rerankEnabled : Bool) (search_type : String)
    (eo ho dn : Except String (List SearchResult)) (limit : ℕ)
    (thr : ℚ) (rt : List Bool) (ro : List CallOutcome) (rms : ℕ) :
    C1amendedForms (mcpServer.retrieve arg expansionEnabled rerankEnabled
      search_type eo ho dn limit thr rt ro rms) := by
  have hform : ∀ (rs : List SearchResult) (meta : Option RerankMeta),
      C1statedForms (mcpServer.format_results_response rs meta) := by
    intro rs meta
    cases rs with
    | nil => exact Or.inr (Or.inl rfl)
    | cons r rs' => exact Or.inl ⟨r :: rs', meta, by simp, rfl⟩
  cases arg with
  | invalid t v =>
      refine Or.inr ?_
      show invalidFormHead.data <+:
        ("Invalid collection_id type: expected list of strings, got "
          ++ t ++ ": " ++ v).data
      refine ⟨("expected list of strings, got ").data ++ t.data
        ++ (": ").data ++ v.data, ?_⟩
      have hsplit :
          ("Invalid collection_id type: expected list of strings, got ").data
            = invalidFormHead.data
              ++ ("expected list of strings, got ").data := by
        decide
      rw [String.data_append, String.data_append, String.data_append, hsplit]
      simp only [List.append_assoc]
  | strList ids =>
      refine Or.inl ?_
      simp only [mcpServer.retrieve]
      cases hinit : retrieve_initial expansionEnabled search_type eo ho dn with
      | error e =>
          exact Or.inr (Or.inr ⟨e.data, (String.data_append _ _).symm⟩)
      | ok initial0 =>
          dsimp only
          split_ifs <;> exact hform _ _

set_option maxRecDepth 8192 in
/-- C1 counterexample: a malformed `collection_id` (a bare string) makes
`retrieve` return the validation message, which is none of the three
forms the claim allows. -/
theorem C1_retrieve_counterexample :
    ¬ C1statedForms (mcpServer.retrieve
      (CollectionIdArg.invalid "<class 'str'>" "'abc'") false false "dense"
      (Except.ok []) (Except.ok []) (Except.ok []) 10 0 [] [] 0) := by
  intro h
  have hout : mcpServer.retrieve
      (CollectionIdArg.invalid "<class 'str'>" "'abc'") false false "dense"
      (Except.ok []) (Except.ok []) (Except.ok []) 10 0 [] [] 0
      = "Invalid collection_id type: expected list of strings, got <class 'str'>: 'abc'" := by
    decide
  rw [hout] at h
  rcases h with ⟨rs, meta, hne, heq⟩ | h | h
  · cases rs with
    | nil => exact hne rfl
    | cons r rs' =>
        have hm := format_marker r rs' meta
        rw [← heq] at hm
        exact absurd hm (by decide)
  · exact absurd h (by decide)
  · exact absurd h (by decide)

/-! ## Claim C5 — z-score normalization -/

/-- C5 counterexample: the services fusion enum has no `z_score` member,
so the hybrid path's `NormalizationMethod(normalization)` coercion fails
for `"z_score"` (a `ValueError` swallowed by the per-collection
`except`), and the collection contributes no results — while `"min_max"`
is accepted by the same coercion. -/
theorem C5_zscore_counterexample :
    NormalizationMethod.ofValue "z_score" = Option.none ∧
    HybridSearchService.search_collection_parallel
      [fxRes "a" (9/10) "d" 1, fxRes "b" (1/2) "d" 2] [0] [1] (3/5)
      "z_score" "weighted" "c"
      = ([fxRes "a" (9/10) "d" 1, fxRes "b" (1/2) "d" 2], []) ∧
    NormalizationMethod.ofValue "min_max" = some NormalizationMethod.MIN_MAX := by
  refine ⟨by decide, ?_, by decide⟩
  unfold HybridSearchService.search_collection_parallel
  rw [if_pos (by decide : ([1] : List ℕ) ≠ [])]
  rfl

/-- C5 (amended): `z_score` is *not* an accepted normalization method in
the services stack — `NormalizationMethod` of `fusion_score.py` accepts
only `"min_max"`, and the hybrid per-collection path returns no results
when handed any unknown normalization string with sparse results
present.  The claimed formula `(s - mean)/std` with the all-ones
zero-variance guard holds only of the legacy server's module-level
z-score branch (mirrored in the unused `SearchFusionService`). -/
theorem C5_zscore_amended :
    (∀ s, NormalizationMethod.ofValue s
        = if s = "min_max" then some NormalizationMethod.MIN_MAX
          else Option.none) ∧
    (∀ (H : List SearchResult) (dense sparse : List ℕ) (w : ℚ)
        (norm fm cid : String), sparse ≠ [] →
      NormalizationMethod.ofValue norm = Option.none →
      HybridSearchService.search_collection_parallel H dense sparse w norm
        fm cid = (H, [])) ∧
    (∀ scores : List ℝ, scores ≠ [] →
      (legacyNormalizeZScore.listStd scores = 0 →
        legacyNormalizeZScore scores = scores.map (fun _ => 1)) ∧
      (legacyNormalizeZScore.listStd scores ≠ 0 →
        legacyNormalizeZScore scores
          = scores.map (fun s =>
              (s - legacyNormalizeZScore.listMean scores)
                / legacyNormalizeZScore.listStd scores))) := by
  refine ⟨fun s => rfl, ?_, ?_⟩
  · intro H dense sparse w norm fm cid hs hnorm
    unfold HybridSearchService.search_collection_parallel
    rw [if_pos hs, hnorm]
  · intro scores hne
    constructor
    · intro hstd
      unfold legacyNormalizeZScore
      rw [if_neg hne, if_pos hstd]
    · intro hstd
      unfold legacyNormalizeZScore
      rw [if_neg hne, if_neg hstd]

theorem C5_zscore_amended_witness :
    NormalizationMethod.ofValue "z_score"
        = (if ("z_score" : String) = "min_max"
            then some NormalizationMethod.MIN_MAX else Option.none) ∧
    HybridSearchService.search_collection_parallel [] [] [0] 0 "z_score"
        "weighted" "c" = ([], []) ∧
    legacyNormalizeZScore [(0 : ℝ)] = [(0 : ℝ)].map (fun _ => 1) :=
  ⟨C5_zscore_amended.1 "z_score",
   C5_zscore_amended.2.1 [] [] [0] 0 "z_score" "weighted" "c"
     (by decide) (by decide),
   (C5_zscore_amended.2.2 [(0 : ℝ)] (by simp)).1
     (by
       unfold legacyNormalizeZScore.listStd legacyNormalizeZScore.listMean
       norm_num)⟩
